import Mathlib

/-!
Verification development for the partitioned, memory-budget-bounded SBE plan
cache of this repository.

The repository's source provides (in the SBE plan-cache header):
  * `PlanCachePartitioner` — maps a key to a partition index by
    `hash(key) % nPartitions`;
  * `CachedSbePlan` — the cached value: an execution-plan stage tree `root`
    plus auxiliary `planStageData`, with `clone()` producing
    `{root->clone(), planStageData}` and `estimateObjectSizeInBytes()`
    returning `root->estimateCompileTimeSize()`;
  * `BudgetEstimator` — reads the entry's stored size estimate;
  * the instantiation `PlanCache = PlanCacheBase<PlanCacheKey, CachedSbePlan,
    BudgetEstimator, PlanCachePartitioner, PlanCacheKeyHasher>`.

The generic partitioned cache `PlanCacheBase` itself (partitions, per-partition
byte accounting, eviction, epoch invalidation, activation state machine) is
declared and instantiated here but its implementation is not part of the
sampled source; those operations are modelled from the specification and are
marked `Modelled from the spec:` in their doc comments.
-/

set_option autoImplicit false

namespace PlanCacheModel

/-- Modelled from the spec: a `ShapeKey` is an immutable, hashable,
equality-comparable value combining a structural query-shape fingerprint with
a catalog-epoch tag; the concrete key derivation is external. -/
structure ShapeKey where
  shape : Nat
  epoch : Nat
deriving DecidableEq, Repr

/-- Modelled from the spec: `PlanCacheKeyHasher`, a deterministic hash of a
`ShapeKey` (equal keys hash equal); the concrete mixing function is external
to the sampled source. -/
def PlanCacheKeyHasher (k : ShapeKey) : Nat :=
  k.shape * 31 + k.epoch

/-- Embeds `PlanCachePartitioner::operator()` from the source: the partition
index for key `k` is `PlanCacheKeyHasher{}(k) % nPartitions`. -/
def PlanCachePartitioner (k : ShapeKey) (nPartitions : Nat) : Nat :=
  PlanCacheKeyHasher k % nPartitions

/-- Modelled from the spec: an execution-plan stage tree (`sbe::PlanStage`);
the source only holds it behind `std::unique_ptr` inside `CachedSbePlan`.
Values in Lean have value semantics, so `clone` of the tree is the tree
itself; instance identity is modelled separately by a heap (below). -/
inductive PlanStage where
  | leaf (kind : Nat)
  | node (kind : Nat) (left right : PlanStage)
deriving DecidableEq, Repr

/-- Modelled from the spec: `sbe::PlanStage::estimateCompileTimeSize`, an
approximate byte size computed from the stage tree alone. -/
def PlanStage.estimateCompileTimeSize : PlanStage → Nat
  | .leaf _ => 1
  | .node _ l r => 1 + l.estimateCompileTimeSize + r.estimateCompileTimeSize

/-- Modelled from the spec: deep clone of the stage tree (`root->clone()`);
with value semantics the clone is structurally the same tree. -/
def PlanStage.clone (p : PlanStage) : PlanStage := p

/-- Modelled from the spec: `stage_builder::PlanStageData`, auxiliary metadata
needed to prepare and execute the stage tree. Only its presence matters for
the claims; it is abstracted to a tag. -/
structure PlanStageData where
  aux : Nat
deriving DecidableEq, Repr

/-- Embeds `CachedSbePlan` from the source: an execution plan `root` plus
auxiliary `planStageData`. -/
structure CachedSbePlan where
  root : PlanStage
  planStageData : PlanStageData
deriving DecidableEq, Repr

/-- Embeds `CachedSbePlan::clone` from the source:
`make_unique<CachedSbePlan>(root->clone(), planStageData)`. -/
def CachedSbePlan.clone (p : CachedSbePlan) : CachedSbePlan :=
  ⟨p.root.clone, p.planStageData⟩

/-- Embeds `CachedSbePlan::estimateObjectSizeInBytes` from the source:
returns `root->estimateCompileTimeSize()`. -/
def CachedSbePlan.estimateObjectSizeInBytes (p : CachedSbePlan) : Nat :=
  p.root.estimateCompileTimeSize

/-!
Heap model for instance identity.  `CachedSbePlan::clone` allocates a fresh
object (`std::make_unique`); two fetches of the same cached entry therefore
return distinct object instances.  We model live plan objects as slots in a
heap (a list indexed by allocation order); allocation appends, mutation
overwrites one slot.
-/

/-- A heap of live `CachedSbePlan` objects, indexed by allocation order. -/
abbrev Heap : Type := List CachedSbePlan

/-- Allocates a fresh object holding `v`; returns the new heap and the fresh
object identifier (its slot index). -/
def Heap.alloc (h : Heap) (v : CachedSbePlan) : Heap × Nat :=
  (List.append h [v], List.length h)

/-- Reads the object at slot `i`, if allocated. -/
def Heap.read (h : Heap) (i : Nat) : Option CachedSbePlan :=
  List.get? h i

/-- Overwrites slot `i` with `v` (models mutating a live plan instance). -/
def Heap.write (h : Heap) (i : Nat) (v : CachedSbePlan) : Heap :=
  List.set h i v

/-- Modelled from the spec: a cache hit on the stored template at slot `t`
clones it — allocating a fresh instance — and returns the fresh instance's
identifier. -/
def Heap.fetchClone (h : Heap) (t : Nat) : Option (Heap × Nat) :=
  match h.read t with
  | some p => some (h.alloc p.clone)
  | none => none

/-!
The partitioned cache, modelled from the spec (the `PlanCacheBase` /
`Partitioned` implementation is not part of the sampled source; only its
declaration and instantiation are).
-/

/-- Modelled from the spec: activation state of a cache entry,
`Inactive` (initial) or `Active`. -/
inductive ActivationState where
  | inactive
  | active
deriving DecidableEq, Repr

/-- Modelled from the spec: the only externally visible cache failure. -/
inductive CacheError where
  | entryTooLarge
deriving DecidableEq, Repr

/-- Modelled from the spec: a stored cache entry — key, exclusively owned
template, size, the catalog epoch at insertion, a recency stamp, the
activation state, and the count of consecutive at-or-below-threshold work
observations feeding the activation machine. -/
structure CacheEntry where
  key : ShapeKey
  template : CachedSbePlan
  sizeBytes : Nat
  epoch : Nat
  recencyStamp : Nat
  state : ActivationState
  lowStreak : Nat
deriving DecidableEq, Repr

/-- Modelled from the spec: a partition — its entries, a byte counter
maintained as the sum of entry sizes, and a logical clock issuing recency
stamps. -/
structure Partition where
  entries : List CacheEntry
  bytesUsed : Nat
  clock : Nat
deriving DecidableEq, Repr

/-- Sum of the sizes of a list of entries. -/
def sumBytes : List CacheEntry → Nat
  | [] => 0
  | e :: es => e.sizeBytes + sumBytes es

/-- First entry with the given key, if any. -/
def findEntry : List CacheEntry → ShapeKey → Option CacheEntry
  | [], _ => none
  | e :: es, k => if e.key = k then some e else findEntry es k

/-- Removes the first entry with the given key, if any. -/
def removeKey : List CacheEntry → ShapeKey → List CacheEntry
  | [], _ => []
  | e :: es, k => if e.key = k then es else e :: removeKey es k

/-- Updates the recency stamp of the entry with key `k` to `c`. -/
def touchKey : List CacheEntry → ShapeKey → Nat → List CacheEntry
  | [], _, _ => []
  | e :: es, k, c =>
    if e.key = k then { e with recencyStamp := c } :: es
    else e :: touchKey es k c

/-- The entry with the smallest recency stamp among `a :: es`. -/
def oldestEntry : CacheEntry → List CacheEntry → CacheEntry
  | a, [] => a
  | a, e :: es => oldestEntry (if e.recencyStamp < a.recencyStamp then e else a) es

/-- Modelled from the spec: eviction victim selection — oldest-recency first,
preferring an `Inactive` entry over an `Active` one: the oldest `Inactive`
candidate if any exists, otherwise the oldest candidate overall. -/
def selectVictim (cands : List CacheEntry) : Option CacheEntry :=
  match cands.filter (fun e => decide (e.state = ActivationState.inactive)) with
  | [] =>
    match cands with
    | [] => none
    | a :: rest => some (oldestEntry a rest)
  | a :: rest => some (oldestEntry a rest)

/-- Modelled from the spec: the synchronous eviction loop run at the end of
`insert` — while the byte counter exceeds the partition budget, select a
victim among the entries other than the just-inserted key, remove it and
subtract its bytes.  The just-inserted entry is never a victim: evicting
older entries always suffices because the new entry alone fits the budget.
Fuel bounds the iteration count; `insert` passes the entry count. -/
def evictLoop : Nat → ShapeKey → List CacheEntry → Nat → Nat → Nat →
    List CacheEntry × Nat × Nat
  | 0, _, es, bytes, _, count => (es, bytes, count)
  | fuel + 1, newKey, es, bytes, budget, count =>
    if bytes ≤ budget then (es, bytes, count)
    else
      match selectVictim (es.filter (fun e => decide (¬ e.key = newKey))) with
      | none => (es, bytes, count)
      | some v => evictLoop fuel newKey (removeKey es v.key) (bytes - v.sizeBytes)
          budget (count + 1)

/-- Modelled from the spec: `Partition::get` — locate the entry; on a match
with the current catalog epoch, refresh its recency and return a clone of the
template; a stale-epoch entry is treated transparently as absent. -/
def Partition.get (p : Partition) (k : ShapeKey) (curEpoch : Nat) :
    Option CachedSbePlan × Partition :=
  match findEntry p.entries k with
  | none => (none, p)
  | some e =>
    if e.epoch = curEpoch then
      (some e.template.clone,
       { entries := touchKey p.entries k p.clock,
         bytesUsed := p.bytesUsed,
         clock := p.clock + 1 })
    else (none, p)

/-- Modelled from the spec: `Partition::insert` — fails with `EntryTooLarge`
(storing nothing) when `size` alone exceeds the partition budget; otherwise
replaces any existing entry for the key (subtracting its prior bytes first),
adds the new entry as `Inactive` with a fresh recency stamp and the current
catalog epoch, then runs synchronous eviction until the byte counter is
within the partition budget.  Returns the partition and the eviction count. -/
def Partition.insert (p : Partition) (k : ShapeKey) (tpl : CachedSbePlan)
    (size : Nat) (curEpoch : Nat) (budget : Nat) :
    Except CacheError (Partition × Nat) :=
  if size > budget then .error .entryTooLarge
  else
    let pair :=
      match findEntry p.entries k with
      | some old => (removeKey p.entries k, p.bytesUsed - old.sizeBytes)
      | none => (p.entries, p.bytesUsed)
    let newE : CacheEntry :=
      { key := k, template := tpl, sizeBytes := size, epoch := curEpoch,
        recencyStamp := p.clock, state := .inactive, lowStreak := 0 }
    let es2 := List.append pair.1 [newE]
    let bytes2 := pair.2 + size
    let res := evictLoop es2.length k es2 bytes2 budget 0
    .ok ({ entries := res.1, bytesUsed := res.2.1, clock := p.clock + 1 }, res.2.2)

/-- Modelled from the spec: one step of the activation state machine.
`Inactive → Active` after two consecutive observations at or below
`threshold`; `Active → Inactive` on an observation exceeding
`threshold * margin`.  Returns the new state and low-observation streak. -/
def stepWork (st : ActivationState) (streak : Nat) (w threshold margin : Nat) :
    ActivationState × Nat :=
  match st with
  | .inactive =>
    if w ≤ threshold then
      if streak + 1 ≥ 2 then (.active, 0) else (.inactive, streak + 1)
    else (.inactive, 0)
  | .active =>
    if w > threshold * margin then (.inactive, 0) else (.active, streak)

/-- Applies `stepWork` to the entry with key `k`. -/
def recordWorkEntries : List CacheEntry → ShapeKey → Nat → Nat → Nat →
    List CacheEntry
  | [], _, _, _, _ => []
  | e :: es, k, w, threshold, margin =>
    if e.key = k then
      let r := stepWork e.state e.lowStreak w threshold margin
      { e with state := r.1, lowStreak := r.2 } :: es
    else e :: recordWorkEntries es k w threshold margin

/-- Modelled from the spec: `Partition::recordWork` feeds the activation
state machine of the entry for `k`. -/
def Partition.recordWork (p : Partition) (k : ShapeKey)
    (w threshold margin : Nat) : Partition :=
  { p with entries := recordWorkEntries p.entries k w threshold margin }

/-- Modelled from the spec: the top-level `PlanCache` — a fixed array of
partitions, a global byte budget, a monotonically increasing catalog-epoch
counter, and the activation-machine configuration (threshold and
multiplicative margin). -/
structure PlanCache where
  partitions : List Partition
  totalBudget : Nat
  currentEpoch : Nat
  threshold : Nat
  marginFactor : Nat
deriving DecidableEq, Repr

/-- Number of partitions (fixed at construction). -/
def PlanCache.nPartitions (c : PlanCache) : Nat :=
  c.partitions.length

/-- Modelled from the spec: each partition's budget is
`totalBudget / nPartitions`. -/
def PlanCache.partitionBudget (c : PlanCache) : Nat :=
  c.totalBudget / c.nPartitions

/-- Modelled from the spec: a freshly constructed cache with `n` empty
partitions. -/
def PlanCache.initial (n totalBudget threshold marginFactor : Nat) : PlanCache :=
  { partitions := List.replicate n { entries := [], bytesUsed := 0, clock := 0 },
    totalBudget := totalBudget,
    currentEpoch := 0,
    threshold := threshold,
    marginFactor := marginFactor }

/-- Modelled from the spec: `PlanCache::get` hashes the key to a partition
index and delegates; a hit returns a private clone of the stored template. -/
def PlanCache.get (c : PlanCache) (k : ShapeKey) :
    Option CachedSbePlan × PlanCache :=
  let i := PlanCachePartitioner k c.nPartitions
  match c.partitions.get? i with
  | none => (none, c)
  | some p =>
    let r := p.get k c.currentEpoch
    (r.1, { c with partitions := c.partitions.set i r.2 })

/-- Modelled from the spec: `PlanCache::insert` hashes the key to a partition
and delegates; the only externally visible failure is `EntryTooLarge`, which
leaves the cache unchanged.  Returns the cache and the eviction count. -/
def PlanCache.insert (c : PlanCache) (k : ShapeKey) (tpl : CachedSbePlan)
    (size : Nat) : Except CacheError (PlanCache × Nat) :=
  if size > c.partitionBudget then .error .entryTooLarge
  else
    let i := PlanCachePartitioner k c.nPartitions
    match c.partitions.get? i with
    | none => .ok (c, 0)
    | some p =>
      match p.insert k tpl size c.currentEpoch c.partitionBudget with
      | .error e => .error e
      | .ok r => .ok ({ c with partitions := c.partitions.set i r.1 }, r.2)

/-- Modelled from the spec: `PlanCache::recordWork` delegates to the owning
partition's activation machine. -/
def PlanCache.recordWork (c : PlanCache) (k : ShapeKey) (w : Nat) : PlanCache :=
  let i := PlanCachePartitioner k c.nPartitions
  match c.partitions.get? i with
  | none => c
  | some p =>
    { c with partitions :=
        c.partitions.set i (p.recordWork k w c.threshold c.marginFactor) }

/-- Modelled from the spec: `PlanCache::invalidateEpoch` bumps the
monotonically increasing epoch counter; no partition is touched and no entry
is scanned or removed — staleness is discovered lazily on the next `get`. -/
def PlanCache.invalidateEpoch (c : PlanCache) (e : Nat) : PlanCache :=
  { c with currentEpoch := max c.currentEpoch e }

/-- A cache operation, for stating reachability and interleaving claims. -/
inductive CacheOp where
  | get (k : ShapeKey)
  | insert (k : ShapeKey) (tpl : CachedSbePlan) (size : Nat)
  | recordWork (k : ShapeKey) (w : Nat)
  | invalidateEpoch (e : Nat)
deriving DecidableEq, Repr

/-- State transition of one operation (a failed insert leaves the cache
unchanged; the caller proceeds without caching). -/
def applyOp (c : PlanCache) : CacheOp → PlanCache
  | .get k => (c.get k).2
  | .insert k tpl size =>
    match c.insert k tpl size with
    | .ok r => r.1
    | .error _ => c
  | .recordWork k w => c.recordWork k w
  | .invalidateEpoch e => c.invalidateEpoch e

/-- Runs a list of operations in order. -/
def runOps (ops : List CacheOp) (c : PlanCache) : PlanCache :=
  ops.foldl applyOp c

/-- Global byte accounting: the sum of all partitions' byte counters. -/
def PlanCache.globalBytesUsed (c : PlanCache) : Nat :=
  (c.partitions.map Partition.bytesUsed).sum

/-!
Helper lemmas about the entry-list operations.
-/

/-- Keys of an entry list are pairwise distinct. -/
def NodupKeys (es : List CacheEntry) : Prop :=
  (es.map CacheEntry.key).Nodup

/-- Well-formedness of a partition: the byte counter equals the sum of entry
sizes (the spec's accounting invariant) and entry keys are pairwise
distinct. -/
def WFp (p : Partition) : Prop :=
  p.bytesUsed = sumBytes p.entries ∧ NodupKeys p.entries

/-- Well-formedness of the whole cache: every partition satisfies the
accounting invariant and is within its budget. -/
def CacheWF (c : PlanCache) : Prop :=
  ∀ p ∈ c.partitions, WFp p ∧ p.bytesUsed ≤ c.partitionBudget

/-- The entry for `k` is present in its partition with template `tpl` and a
current epoch (it would be returned by `get`). -/
def goodEntry (c : PlanCache) (k : ShapeKey) (tpl : CachedSbePlan) : Prop :=
  ∃ p, c.partitions.get? (PlanCachePartitioner k c.nPartitions) = some p ∧
    ∃ e, findEntry p.entries k = some e ∧ e.template = tpl ∧
      e.epoch = c.currentEpoch

/-- The key an operation addresses, when it addresses one. -/
def opKey : CacheOp → Option ShapeKey
  | .get k => some k
  | .insert k _ _ => some k
  | .recordWork k _ => some k
  | .invalidateEpoch _ => none

/-- Applies `f` to partition `i` (the per-partition critical section). -/
def modifyAt (c : PlanCache) (i : Nat) (f : Partition → Partition) : PlanCache :=
  match c.partitions.get? i with
  | none => c
  | some p => { c with partitions := c.partitions.set i (f p) }

/-- The per-partition step a keyed operation performs. -/
def keyedStep (c : PlanCache) (op : CacheOp) : Partition → Partition :=
  fun p =>
    match op with
    | .get k => (p.get k c.currentEpoch).2
    | .insert k tpl size =>
      if size > c.partitionBudget then p
      else
        match p.insert k tpl size c.currentEpoch c.partitionBudget with
        | .ok r => r.1
        | .error _ => p
    | .recordWork k w => p.recordWork k w c.threshold c.marginFactor
    | .invalidateEpoch _ => p

/-- Modelled from the spec: an interleaving (merge) of several threads'
operation sequences — each step executes the next operation of some thread,
preserving every thread's internal order.  This represents a concurrent
schedule in which each operation is one critical section under its
partition's lock. -/
inductive Merge : List (List CacheOp) → List CacheOp → Prop where
  | done (ts : List (List CacheOp)) : (∀ t ∈ ts, t = []) → Merge ts []
  | step (ts : List (List CacheOp)) (i : Nat) (op : CacheOp)
      (tl : List CacheOp) (m : List CacheOp) :
      ts.get? i = some (op :: tl) → Merge (ts.set i tl) m → Merge ts (op :: m)

theorem sumBytes_append (l1 l2 : List CacheEntry) :
    sumBytes (l1 ++ l2) = sumBytes l1 + sumBytes l2 := by
  induction l1 with
  | nil => simp [sumBytes]
  | cons e es ih => simp [sumBytes, ih, Nat.add_assoc]

theorem findEntry_key {es : List CacheEntry} {k : ShapeKey} {v : CacheEntry}
    (h : findEntry es k = some v) : v.key = k := by
  induction es with
  | nil => simp [findEntry] at h
  | cons e es ih =>
    by_cases he : e.key = k
    · simp [findEntry, he] at h; simpa [← h]
    · simp [findEntry, he] at h; exact ih h

theorem findEntry_mem {es : List CacheEntry} {k : ShapeKey} {v : CacheEntry}
    (h : findEntry es k = some v) : v ∈ es := by
  induction es with
  | nil => simp [findEntry] at h
  | cons e es ih =>
    by_cases he : e.key = k
    · simp [findEntry, he] at h; simp [h]
    · simp [findEntry, he] at h
      exact List.mem_cons_of_mem _ (ih h)

theorem findEntry_none_iff (es : List CacheEntry) (k : ShapeKey) :
    findEntry es k = none ↔ ∀ e ∈ es, e.key ≠ k := by
  induction es with
  | nil => simp [findEntry]
  | cons e es ih =>
    simp only [findEntry]
    by_cases he : e.key = k
    · simp [he]
    · simp [he, ih]

theorem removeKey_of_findEntry_none {es : List CacheEntry} {k : ShapeKey}
    (h : findEntry es k = none) : removeKey es k = es := by
  induction es with
  | nil => rfl
  | cons e es ih =>
    by_cases he : e.key = k
    · simp [findEntry, he] at h
    · simp [findEntry, he] at h
      simp [removeKey, he, ih h]

theorem removeKey_sublist (es : List CacheEntry) (k : ShapeKey) :
    (removeKey es k).Sublist es := by
  induction es with
  | nil => simp [removeKey]
  | cons e es ih =>
    by_cases he : e.key = k
    · simp [removeKey, he]
    · simp only [removeKey, if_neg he]
      exact List.Sublist.cons₂ e ih

theorem removeKey_subset {es : List CacheEntry} {k : ShapeKey} :
    ∀ e ∈ removeKey es k, e ∈ es :=
  fun _ he => (removeKey_sublist es k).subset he

theorem sumBytes_removeKey {es : List CacheEntry} {k : ShapeKey} {v : CacheEntry}
    (h : findEntry es k = some v) :
    sumBytes es = v.sizeBytes + sumBytes (removeKey es k) := by
  induction es with
  | nil => simp [findEntry] at h
  | cons e es ih =>
    by_cases he : e.key = k
    · simp [findEntry, he] at h
      simp [removeKey, he, ← h, sumBytes]
    · simp [findEntry, he] at h
      simp [removeKey, he, sumBytes, ih h]
      omega

theorem length_removeKey {es : List CacheEntry} {k : ShapeKey} {v : CacheEntry}
    (h : findEntry es k = some v) :
    (removeKey es k).length + 1 = es.length := by
  induction es with
  | nil => simp [findEntry] at h
  | cons e es ih =>
    by_cases he : e.key = k
    · simp [removeKey, he]
    · simp [findEntry, he] at h
      simp [removeKey, he, ih h]

theorem findEntry_removeKey_ne {es : List CacheEntry} {k k2 : ShapeKey}
    (hne : k2 ≠ k) : findEntry (removeKey es k) k2 = findEntry es k2 := by
  induction es with
  | nil => rfl
  | cons e es ih =>
    have hkk : ¬ k = k2 := fun h => hne h.symm
    have hkk2 : ¬ k2 = k := hne
    by_cases he : e.key = k
    · simp [removeKey, he, findEntry, hkk]
    · by_cases he2 : e.key = k2
      · simp [removeKey, he, findEntry, he2, hkk2]
      · simp [removeKey, he, findEntry, he2, hkk2, ih]

theorem nodupKeys_removeKey {es : List CacheEntry} (k : ShapeKey)
    (h : NodupKeys es) : NodupKeys (removeKey es k) :=
  List.Nodup.sublist (List.Sublist.map _ (removeKey_sublist es k)) h

theorem findEntry_removeKey_self {es : List CacheEntry} {k : ShapeKey}
    (h : NodupKeys es) : findEntry (removeKey es k) k = none := by
  induction es with
  | nil => rfl
  | cons e es ih =>
    have hnd : NodupKeys es := (List.nodup_cons.mp h).2
    by_cases he : e.key = k
    · simp [removeKey, he]
      rw [findEntry_none_iff]
      intro x hx hxk
      have : e.key ∈ es.map CacheEntry.key := by
        rw [he, ← hxk]; exact List.mem_map_of_mem _ hx
      exact (List.nodup_cons.mp h).1 this
    · simp [removeKey, he, findEntry, ih hnd]

theorem filter_ne_removeKey {es : List CacheEntry} {k nk : ShapeKey} {v : CacheEntry}
    (hk : k ≠ nk) (h : findEntry es k = some v) :
    ((removeKey es k).filter (fun e => decide (¬ e.key = nk))).length + 1 =
      (es.filter (fun e => decide (¬ e.key = nk))).length := by
  have hk1 : ¬ k = nk := hk
  have hk2 : ¬ nk = k := fun hh => hk hh.symm
  induction es with
  | nil => simp [findEntry] at h
  | cons e es ih =>
    by_cases he : e.key = k
    · simp [removeKey, he, List.filter_cons, hk1]
    · simp only [findEntry, if_neg he] at h
      by_cases hnk : e.key = nk
      · have hih := ih h
        simp only [decide_not] at hih
        simp [removeKey, he, hk2, List.filter_cons, hnk]
        simpa using hih
      · have hih := ih h
        simp only [decide_not] at hih
        simp [removeKey, he, List.filter_cons, hnk]
        omega

theorem sumBytes_touchKey (es : List CacheEntry) (k : ShapeKey) (c : Nat) :
    sumBytes (touchKey es k c) = sumBytes es := by
  induction es with
  | nil => rfl
  | cons e es ih =>
    by_cases he : e.key = k
    · simp [touchKey, he, sumBytes]
    · simp [touchKey, he, sumBytes, ih]

theorem keys_touchKey (es : List CacheEntry) (k : ShapeKey) (c : Nat) :
    (touchKey es k c).map CacheEntry.key = es.map CacheEntry.key := by
  induction es with
  | nil => rfl
  | cons e es ih =>
    by_cases he : e.key = k
    · simp [touchKey, he]
    · simp [touchKey, he, ih]

theorem findEntry_touchKey_ne {es : List CacheEntry} {k k2 : ShapeKey} {c : Nat}
    (hne : k2 ≠ k) : findEntry (touchKey es k c) k2 = findEntry es k2 := by
  have hkk : ¬ k = k2 := fun hh => hne hh.symm
  have hkk2 : ¬ k2 = k := hne
  induction es with
  | nil => rfl
  | cons e es ih =>
    by_cases he : e.key = k
    · simp [touchKey, he, findEntry, hkk]
    · by_cases he2 : e.key = k2
      · simp [touchKey, he, findEntry, he2, hkk2]
      · simp [touchKey, he, findEntry, he2, hkk2, ih]

theorem findEntry_touchKey_self {es : List CacheEntry} {k : ShapeKey} {c : Nat}
    {e : CacheEntry} (h : findEntry es k = some e) :
    findEntry (touchKey es k c) k = some { e with recencyStamp := c } := by
  induction es with
  | nil => simp [findEntry] at h
  | cons x es ih =>
    by_cases hx : x.key = k
    · rw [findEntry, if_pos hx] at h
      injection h with h
      subst h
      simp [touchKey, findEntry, hx]
    · rw [findEntry, if_neg hx] at h
      simp [touchKey, hx, findEntry, ih h]

theorem sumBytes_recordWorkEntries (es : List CacheEntry) (k : ShapeKey)
    (w t m : Nat) : sumBytes (recordWorkEntries es k w t m) = sumBytes es := by
  induction es with
  | nil => rfl
  | cons e es ih =>
    by_cases he : e.key = k
    · simp [recordWorkEntries, he, sumBytes]
    · simp [recordWorkEntries, he, sumBytes, ih]

theorem keys_recordWorkEntries (es : List CacheEntry) (k : ShapeKey)
    (w t m : Nat) :
    (recordWorkEntries es k w t m).map CacheEntry.key = es.map CacheEntry.key := by
  induction es with
  | nil => rfl
  | cons e es ih =>
    by_cases he : e.key = k
    · simp [recordWorkEntries, he]
    · simp [recordWorkEntries, he, ih]

theorem findEntry_recordWorkEntries_ne {es : List CacheEntry} {k k2 : ShapeKey}
    {w t m : Nat} (hne : k2 ≠ k) :
    findEntry (recordWorkEntries es k w t m) k2 = findEntry es k2 := by
  have hkk : ¬ k = k2 := fun hh => hne hh.symm
  have hkk2 : ¬ k2 = k := hne
  induction es with
  | nil => rfl
  | cons e es ih =>
    by_cases he : e.key = k
    · simp [recordWorkEntries, he, findEntry, hkk]
    · by_cases he2 : e.key = k2
      · simp [recordWorkEntries, he, findEntry, he2, hkk2]
      · simp [recordWorkEntries, he, findEntry, he2, hkk2, ih]

theorem findEntry_recordWorkEntries_self {es : List CacheEntry} {k : ShapeKey}
    {w t m : Nat} {e : CacheEntry} (h : findEntry es k = some e) :
    findEntry (recordWorkEntries es k w t m) k =
      some { e with
        state := (stepWork e.state e.lowStreak w t m).1,
        lowStreak := (stepWork e.state e.lowStreak w t m).2 } := by
  induction es with
  | nil => simp [findEntry] at h
  | cons x es ih =>
    by_cases hx : x.key = k
    · rw [findEntry, if_pos hx] at h
      injection h with h
      subst h
      simp [recordWorkEntries, findEntry, hx]
    · rw [findEntry, if_neg hx] at h
      simp [recordWorkEntries, hx, findEntry, ih h]

theorem oldestEntry_mem (a : CacheEntry) (es : List CacheEntry) :
    oldestEntry a es ∈ a :: es := by
  induction es generalizing a with
  | nil => simp [oldestEntry]
  | cons e es ih =>
    simp only [oldestEntry]
    have h := ih (if e.recencyStamp < a.recencyStamp then e else a)
    rcases List.mem_cons.mp h with heq | hmem
    · rw [heq]
      by_cases hc : e.recencyStamp < a.recencyStamp
      · simp [hc]
      · simp [hc]
    · exact List.mem_cons_of_mem _ (List.mem_cons_of_mem _ hmem)

theorem oldestEntry_min (a : CacheEntry) (es : List CacheEntry) :
    ∀ e ∈ a :: es, (oldestEntry a es).recencyStamp ≤ e.recencyStamp := by
  induction es generalizing a with
  | nil =>
    intro e he
    simp at he
    simp [oldestEntry, he]
  | cons x es ih =>
    intro e he
    simp only [oldestEntry]
    have hbase : (if x.recencyStamp < a.recencyStamp then x else a).recencyStamp ≤
        a.recencyStamp ∧
        (if x.recencyStamp < a.recencyStamp then x else a).recencyStamp ≤
        x.recencyStamp := by
      by_cases hc : x.recencyStamp < a.recencyStamp <;> simp [hc] <;> omega
    rcases List.mem_cons.mp he with rfl | he2
    · exact le_trans (ih _ _ (List.mem_cons_self _ _)) hbase.1
    · rcases List.mem_cons.mp he2 with rfl | he3
      · exact le_trans (ih _ _ (List.mem_cons_self _ _)) hbase.2
      · exact ih _ _ (List.mem_cons_of_mem _ he3)

theorem selectVictim_mem {cands : List CacheEntry} {v : CacheEntry}
    (h : selectVictim cands = some v) : v ∈ cands := by
  unfold selectVictim at h
  split at h
  · split at h
    · simp at h
    · simp only [Option.some.injEq] at h
      subst h
      exact oldestEntry_mem _ _
  · rename_i a rest heq
    simp only [Option.some.injEq] at h
    subst h
    have := oldestEntry_mem a rest
    have hsub : a :: rest ⊆ cands := by
      rw [← heq]
      exact fun x hx => List.mem_of_mem_filter hx
    exact hsub this

theorem selectVictim_some_of_ne_nil {cands : List CacheEntry}
    (h : cands ≠ []) : ∃ v, selectVictim cands = some v := by
  unfold selectVictim
  split
  · match cands, h with
    | a :: rest, _ => exact ⟨_, rfl⟩
  · exact ⟨_, rfl⟩

theorem findEntry_of_mem_nodup {es : List CacheEntry} {v : CacheEntry}
    (hnd : NodupKeys es) (hv : v ∈ es) : findEntry es v.key = some v := by
  induction es with
  | nil => simp at hv
  | cons e es ih =>
    simp only [NodupKeys, List.map_cons, List.nodup_cons] at hnd
    rcases List.mem_cons.mp hv with rfl | hv2
    · simp [findEntry]
    · by_cases he : e.key = v.key
      · exfalso
        exact hnd.1 (by rw [he]; exact List.mem_map_of_mem _ hv2)
      · simp [findEntry, he, ih hnd.2 hv2]

theorem sumBytes_le_of_all_key {es : List CacheEntry} {nk : ShapeKey}
    {budget : Nat} (hnd : NodupKeys es) (hall : ∀ e ∈ es, e.key = nk)
    (hsize : ∀ e ∈ es, e.sizeBytes ≤ budget) : sumBytes es ≤ budget := by
  match es with
  | [] => simpa [sumBytes] using Nat.zero_le budget
  | [e] => simpa [sumBytes] using hsize e (by simp)
  | e1 :: e2 :: rest =>
    exfalso
    have h1 : e1.key = nk := hall e1 (by simp)
    have h2 : e2.key = nk := hall e2 (by simp)
    simp only [NodupKeys, List.map_cons, List.nodup_cons] at hnd
    exact hnd.1 (by rw [h1, ← h2]; exact List.mem_cons_self _ _)

theorem evictLoop_spec (budget : Nat) (nk : ShapeKey) :
    ∀ (fuel : Nat) (es : List CacheEntry) (bytes count : Nat)
      (es2 : List CacheEntry) (bytes2 count2 : Nat),
    evictLoop fuel nk es bytes budget count = (es2, bytes2, count2) →
    bytes = sumBytes es → NodupKeys es →
    (∀ e ∈ es, e.key = nk → e.sizeBytes ≤ budget) →
    (es.filter (fun e => decide (¬ e.key = nk))).length ≤ fuel →
    bytes2 = sumBytes es2 ∧ bytes2 ≤ budget ∧ NodupKeys es2 ∧
      findEntry es2 nk = findEntry es nk ∧
      (∀ e ∈ es2, e ∈ es) ∧
      (∀ k2, findEntry es2 k2 = findEntry es k2 ∨ findEntry es2 k2 = none) := by
  intro fuel
  induction fuel with
  | zero =>
    intro es bytes count es2 bytes2 count2 heq hsum hnd hnk hfuel
    simp only [evictLoop, Prod.mk.injEq] at heq
    obtain ⟨rfl, rfl, rfl⟩ := heq
    have hfe : es.filter (fun e => decide (¬ e.key = nk)) = [] :=
      List.length_eq_zero.mp (Nat.le_zero.mp hfuel)
    have hall : ∀ e ∈ es, e.key = nk := by
      intro e he
      have := List.filter_eq_nil.mp hfe e he
      simpa using this
    refine ⟨hsum, ?_, hnd, rfl, fun e he => he, fun k2 => Or.inl rfl⟩
    rw [hsum]
    exact sumBytes_le_of_all_key hnd hall (fun e he => hnk e he (hall e he))
  | succ fuel ih =>
    intro es bytes count es2 bytes2 count2 heq hsum hnd hnk hfuel
    rw [evictLoop] at heq
    by_cases hb : bytes ≤ budget
    · rw [if_pos hb] at heq
      simp only [Prod.mk.injEq] at heq
      obtain ⟨rfl, rfl, rfl⟩ := heq
      exact ⟨hsum, hb, hnd, rfl, fun e he => he, fun k2 => Or.inl rfl⟩
    · rw [if_neg hb] at heq
      rcases hsel : selectVictim (es.filter fun e => decide (¬ e.key = nk)) with
        _ | v
      · exfalso
        rcases hcands : es.filter (fun e => decide (¬ e.key = nk)) with _ | ⟨a, rest⟩
        · have hall : ∀ e ∈ es, e.key = nk := by
            intro e he
            have := List.filter_eq_nil.mp hcands e he
            simpa using this
          exact hb (hsum ▸ sumBytes_le_of_all_key hnd hall
            (fun e he => hnk e he (hall e he)))
        · obtain ⟨v, hv⟩ := selectVictim_some_of_ne_nil
            (hcands ▸ List.cons_ne_nil a rest)
          rw [hsel] at hv
          exact Option.noConfusion hv
      · rw [hsel] at heq
        have hvmem : v ∈ es.filter (fun e => decide (¬ e.key = nk)) :=
          selectVictim_mem hsel
        have hvin : v ∈ es := List.mem_of_mem_filter hvmem
        have hvkey : ¬ v.key = nk := by
          have := List.of_mem_filter hvmem
          simpa using this
        have hfind : findEntry es v.key = some v := findEntry_of_mem_nodup hnd hvin
        have hsum2 : sumBytes es = v.sizeBytes + sumBytes (removeKey es v.key) :=
          sumBytes_removeKey hfind
        have hrec := ih (removeKey es v.key) (bytes - v.sizeBytes) (count + 1)
          es2 bytes2 count2 heq
          (by omega)
          (nodupKeys_removeKey _ hnd)
          (fun e he hek => hnk e (removeKey_subset e he) hek)
          (by
            have := filter_ne_removeKey (v := v) hvkey hfind
            omega)
        obtain ⟨h1, h2, h3, h4, h5, h6⟩ := hrec
        refine ⟨h1, h2, h3, ?_, fun e he => removeKey_subset e (h5 e he), ?_⟩
        · rw [h4]
          exact findEntry_removeKey_ne (fun hh => hvkey hh.symm)
        · intro k2
          by_cases hk2 : k2 = v.key
          · right
            rcases h6 k2 with h | h
            · rw [h, hk2]
              exact findEntry_removeKey_self hnd
            · exact h
          · rcases h6 k2 with h | h
            · left
              rw [h]
              exact findEntry_removeKey_ne hk2
            · right
              exact h

theorem findEntry_append_single_ne {es : List CacheEntry} {x : CacheEntry}
    {k2 : ShapeKey} (hx : ¬ x.key = k2) :
    findEntry (es ++ [x]) k2 = findEntry es k2 := by
  induction es with
  | nil => simp [findEntry, hx]
  | cons e es ih =>
    by_cases he : e.key = k2
    · simp [findEntry, he]
    · simp [findEntry, he, ih]

theorem findEntry_append_single_self {es : List CacheEntry} {x : CacheEntry}
    {k : ShapeKey} (hx : x.key = k) (hes : findEntry es k = none) :
    findEntry (es ++ [x]) k = some x := by
  induction es with
  | nil => simp [findEntry, hx]
  | cons e es ih =>
    have h2 := (findEntry_none_iff _ _).mp hes
    have he : ¬ e.key = k := h2 e (List.mem_cons_self _ _)
    have hes2 : findEntry es k = none :=
      (findEntry_none_iff _ _).mpr (fun e2 he2 => h2 e2 (List.mem_cons_of_mem _ he2))
    simp [findEntry, he, ih hes2]

theorem nodupKeys_append_single {es : List CacheEntry} {x : CacheEntry}
    (hnd : NodupKeys es) (hnone : findEntry es x.key = none) :
    NodupKeys (es ++ [x]) := by
  simp only [NodupKeys, List.map_append, List.map_cons, List.map_nil]
  rw [List.nodup_append]
  refine ⟨hnd, List.nodup_singleton _, ?_⟩
  intro a ha hax
  simp only [List.mem_singleton] at hax
  obtain ⟨e, he, rfl⟩ := List.mem_map.mp ha
  exact (findEntry_none_iff _ _).mp hnone e he (by rw [hax])

theorem Partition.insert_spec {p : Partition} {k : ShapeKey}
    {tpl : CachedSbePlan} {size ep budget : Nat} {p2 : Partition} {cnt : Nat}
    (hwf : WFp p)
    (heq : p.insert k tpl size ep budget = .ok (p2, cnt)) :
    size ≤ budget ∧ WFp p2 ∧ p2.bytesUsed ≤ budget ∧
      findEntry p2.entries k = some
        { key := k, template := tpl, sizeBytes := size, epoch := ep,
          recencyStamp := p.clock, state := .inactive, lowStreak := 0 } ∧
      (∀ k2, ¬ k2 = k →
        findEntry p2.entries k2 = findEntry p.entries k2 ∨
        findEntry p2.entries k2 = none) := by
  rw [Partition.insert] at heq
  by_cases hsz : size > budget
  · rw [if_pos hsz] at heq
    exact absurd heq (by simp)
  · rw [if_neg hsz] at heq
    refine ⟨by omega, ?_⟩
    set newE : CacheEntry :=
      { key := k, template := tpl, sizeBytes := size, epoch := ep,
        recencyStamp := p.clock, state := .inactive, lowStreak := 0 } with hnewE
    have hstep : ∀ (es1 : List CacheEntry) (bytes1 : Nat),
        bytes1 = sumBytes es1 → NodupKeys es1 → findEntry es1 k = none →
        (∀ k2, ¬ k2 = k → findEntry es1 k2 = findEntry p.entries k2) →
        (evictLoop (es1 ++ [newE]).length k (es1 ++ [newE]) (bytes1 + size)
            budget 0 = (p2.entries, p2.bytesUsed, cnt)) →
        WFp p2 ∧ p2.bytesUsed ≤ budget ∧
          findEntry p2.entries k = some newE ∧
          (∀ k2, ¬ k2 = k →
            findEntry p2.entries k2 = findEntry p.entries k2 ∨
            findEntry p2.entries k2 = none) := by
      intro es1 bytes1 hsum1 hnd1 hnone1 hpres1 hev
      have hsum2 : bytes1 + size = sumBytes (es1 ++ [newE]) := by
        rw [sumBytes_append, hsum1]
        simp [sumBytes, hnewE]
      have hnd2 : NodupKeys (es1 ++ [newE]) :=
        nodupKeys_append_single hnd1 (by rw [hnewE]; exact hnone1)
      have hnk2 : ∀ e ∈ es1 ++ [newE], e.key = k → e.sizeBytes ≤ budget := by
        intro e he hek
        rcases List.mem_append.mp he with h | h
        · exact absurd hek ((findEntry_none_iff _ _).mp hnone1 e h)
        · simp only [List.mem_singleton] at h
          subst h
          show size ≤ budget
          omega
      have hspec := evictLoop_spec budget k (es1 ++ [newE]).length
        (es1 ++ [newE]) (bytes1 + size) 0 p2.entries p2.bytesUsed cnt hev
        hsum2 hnd2 hnk2 (List.length_filter_le _ _)
      obtain ⟨h1, h2, h3, h4, _, h6⟩ := hspec
      refine ⟨⟨h1, h3⟩, h2, ?_, ?_⟩
      · rw [h4]
        exact findEntry_append_single_self rfl hnone1
      · intro k2 hk2
        rcases h6 k2 with h | h
        · left
          rw [h, findEntry_append_single_ne
            (show ¬ newE.key = k2 from fun hh => hk2 hh.symm)]
          exact hpres1 k2 hk2
        · right
          exact h
    rcases hf : findEntry p.entries k with _ | old
    · rw [hf] at heq
      simp only [Except.ok.injEq, Prod.mk.injEq] at heq
      obtain ⟨hp2, hcnt⟩ := heq
      have hev : evictLoop (p.entries ++ [newE]).length k (p.entries ++ [newE])
          (p.bytesUsed + size) budget 0 = (p2.entries, p2.bytesUsed, cnt) := by
        rw [← hp2, ← hcnt]
        rfl
      exact hstep p.entries p.bytesUsed hwf.1 hwf.2 hf (fun _ _ => rfl) hev
    · rw [hf] at heq
      simp only [Except.ok.injEq, Prod.mk.injEq] at heq
      obtain ⟨hp2, hcnt⟩ := heq
      have hsum1 : p.bytesUsed - old.sizeBytes = sumBytes (removeKey p.entries k) := by
        have h1 := sumBytes_removeKey hf
        have h2 := hwf.1
        omega
      have hev : evictLoop ((removeKey p.entries k) ++ [newE]).length k
          ((removeKey p.entries k) ++ [newE])
          ((p.bytesUsed - old.sizeBytes) + size) budget 0 =
          (p2.entries, p2.bytesUsed, cnt) := by
        rw [← hp2, ← hcnt]
        rfl
      exact hstep (removeKey p.entries k) (p.bytesUsed - old.sizeBytes) hsum1
        (nodupKeys_removeKey _ hwf.2) (findEntry_removeKey_self hwf.2)
        (fun k2 hk2 => findEntry_removeKey_ne hk2) hev

theorem Partition.get_WFp {p : Partition} (k : ShapeKey) (cur : Nat)
    (hwf : WFp p) :
    WFp (p.get k cur).2 ∧ (p.get k cur).2.bytesUsed = p.bytesUsed := by
  rcases hf : findEntry p.entries k with _ | e
  · simp only [Partition.get, hf]
    exact ⟨hwf, trivial⟩
  · simp only [Partition.get, hf]
    by_cases he : e.epoch = cur
    · rw [if_pos he]
      refine ⟨⟨?_, ?_⟩, rfl⟩
      · rw [sumBytes_touchKey]
        exact hwf.1
      · show ((touchKey p.entries k p.clock).map CacheEntry.key).Nodup
        rw [keys_touchKey]
        exact hwf.2
    · rw [if_neg he]
      exact ⟨hwf, rfl⟩

theorem Partition.recordWork_WFp {p : Partition} (k : ShapeKey) (w t m : Nat)
    (hwf : WFp p) :
    WFp (p.recordWork k w t m) ∧ (p.recordWork k w t m).bytesUsed = p.bytesUsed := by
  refine ⟨⟨?_, ?_⟩, rfl⟩
  · show p.bytesUsed = sumBytes (recordWorkEntries p.entries k w t m)
    rw [sumBytes_recordWorkEntries]
    exact hwf.1
  · show ((recordWorkEntries p.entries k w t m).map CacheEntry.key).Nodup
    rw [keys_recordWorkEntries]
    exact hwf.2

theorem CacheWF_initial (n B t m : Nat) : CacheWF (PlanCache.initial n B t m) := by
  intro p hp
  have := List.eq_of_mem_replicate hp
  subst this
  exact ⟨⟨rfl, List.nodup_nil⟩, Nat.zero_le _⟩

theorem applyOp_fields (c : PlanCache) (op : CacheOp) :
    (applyOp c op).totalBudget = c.totalBudget ∧
    (applyOp c op).partitions.length = c.partitions.length ∧
    (applyOp c op).threshold = c.threshold ∧
    (applyOp c op).marginFactor = c.marginFactor := by
  cases op with
  | get k =>
    simp only [applyOp, PlanCache.get]
    rcases h : c.partitions.get? (PlanCachePartitioner k c.nPartitions) with _ | p
    · simp
    · simp [List.length_set]
  | insert k tpl size =>
    simp only [applyOp, PlanCache.insert]
    by_cases hs : size > c.partitionBudget
    · simp [hs]
    · simp only [if_neg hs]
      rcases h : c.partitions.get? (PlanCachePartitioner k c.nPartitions) with _ | p
      · simp
      · rcases h2 : p.insert k tpl size c.currentEpoch c.partitionBudget with e | r
        · simp [h2]
        · simp [h2, List.length_set]
  | recordWork k w =>
    simp only [applyOp, PlanCache.recordWork]
    rcases h : c.partitions.get? (PlanCachePartitioner k c.nPartitions) with _ | p
    · simp
    · simp [List.length_set]
  | invalidateEpoch e => simp [applyOp, PlanCache.invalidateEpoch]

theorem applyOp_partitionBudget (c : PlanCache) (op : CacheOp) :
    (applyOp c op).partitionBudget = c.partitionBudget := by
  have h := applyOp_fields c op
  rw [PlanCache.partitionBudget, PlanCache.partitionBudget, PlanCache.nPartitions,
    PlanCache.nPartitions, h.1, h.2.1]

theorem CacheWF_applyOp {c : PlanCache} (op : CacheOp) (hwf : CacheWF c) :
    CacheWF (applyOp c op) := by
  have hpb := applyOp_partitionBudget c op
  cases op with
  | get k =>
    simp only [applyOp, PlanCache.get] at hpb ⊢
    rcases h : c.partitions.get? (PlanCachePartitioner k c.nPartitions) with _ | p
    · simp only [h]
      exact hwf
    · simp only [h] at hpb ⊢
      intro q hq
      rw [hpb]
      rcases List.mem_or_eq_of_mem_set hq with hq2 | hq2
      · exact hwf q hq2
      · have hp := hwf p (List.get?_mem h)
        have hg := Partition.get_WFp k c.currentEpoch hp.1
        subst hq2
        exact ⟨hg.1, hg.2 ▸ hp.2⟩
  | insert k tpl size =>
    simp only [applyOp, PlanCache.insert] at hpb ⊢
    by_cases hs : size > c.partitionBudget
    · simp only [if_pos hs]
      exact hwf
    · simp only [if_neg hs] at hpb ⊢
      rcases h : c.partitions.get? (PlanCachePartitioner k c.nPartitions) with _ | p
      · simp only [h]
        exact hwf
      · simp only [h] at hpb ⊢
        rcases h2 : p.insert k tpl size c.currentEpoch c.partitionBudget with e | r
        · simp only [h2]
          exact hwf
        · simp only [h2] at hpb ⊢
          intro q hq
          rw [hpb]
          rcases List.mem_or_eq_of_mem_set hq with hq2 | hq2
          · exact hwf q hq2
          · have hp := hwf p (List.get?_mem h)
            have hr : p.insert k tpl size c.currentEpoch c.partitionBudget =
                .ok (r.1, r.2) := by rw [h2]
            have hins := Partition.insert_spec hp.1 hr
            subst hq2
            exact ⟨hins.2.1, hins.2.2.1⟩
  | recordWork k w =>
    simp only [applyOp, PlanCache.recordWork] at hpb ⊢
    rcases h : c.partitions.get? (PlanCachePartitioner k c.nPartitions) with _ | p
    · simp only [h]
      exact hwf
    · simp only [h] at hpb ⊢
      intro q hq
      rw [hpb]
      rcases List.mem_or_eq_of_mem_set hq with hq2 | hq2
      · exact hwf q hq2
      · have hp := hwf p (List.get?_mem h)
        have hg := Partition.recordWork_WFp k w c.threshold c.marginFactor hp.1
        subst hq2
        exact ⟨hg.1, hg.2 ▸ hp.2⟩
  | invalidateEpoch e =>
    simp only [applyOp, PlanCache.invalidateEpoch] at hpb ⊢
    intro q hq
    rw [hpb]
    exact hwf q hq

theorem CacheWF_runOps (ops : List CacheOp) {c : PlanCache} (hwf : CacheWF c) :
    CacheWF (runOps ops c) := by
  induction ops generalizing c with
  | nil => exact hwf
  | cons op ops ih => exact ih (CacheWF_applyOp op hwf)

/-- Claim C2: after every completed insert (indeed after any sequence of
operations from a freshly constructed cache), the sum of all partitions'
byte counters is at most the total budget, and each partition's byte counter
is at most the partition budget. -/
theorem claim_C2_budget_invariant (n B t m : Nat) (ops : List CacheOp) :
    (runOps ops (PlanCache.initial n B t m)).globalBytesUsed ≤
      (runOps ops (PlanCache.initial n B t m)).totalBudget ∧
    ∀ p ∈ (runOps ops (PlanCache.initial n B t m)).partitions,
      p.bytesUsed ≤ (runOps ops (PlanCache.initial n B t m)).partitionBudget := by
  have hwf := CacheWF_runOps ops (CacheWF_initial n B t m)
  refine ⟨?_, fun p hp => (hwf p hp).2⟩
  set s := runOps ops (PlanCache.initial n B t m) with hs
  have hbound : ∀ x ∈ s.partitions.map Partition.bytesUsed, x ≤ s.partitionBudget := by
    intro x hx
    obtain ⟨p, hp, rfl⟩ := List.mem_map.mp hx
    exact (hwf p hp).2
  have hsum := List.sum_le_card_nsmul _ _ hbound
  rw [List.length_map, smul_eq_mul] at hsum
  calc s.globalBytesUsed ≤ s.partitions.length * s.partitionBudget := hsum
    _ = s.partitionBudget * s.partitions.length := Nat.mul_comm _ _
    _ ≤ s.totalBudget := Nat.div_mul_le_self _ _

theorem CachedSbePlan.clone_eq (p : CachedSbePlan) : p.clone = p := rfl

theorem get_fst_of_goodEntry {c : PlanCache} {k : ShapeKey}
    {tpl : CachedSbePlan} (hg : goodEntry c k tpl) : (c.get k).1 = some tpl := by
  obtain ⟨p, hp, e, he, het, hee⟩ := hg
  simp only [PlanCache.get, hp, Partition.get, he, if_pos hee]
  rw [CachedSbePlan.clone_eq, het]

theorem get_fst_none_of_absent {c : PlanCache} {k : ShapeKey} {p : Partition}
    (hp : c.partitions.get? (PlanCachePartitioner k c.nPartitions) = some p)
    (h : findEntry p.entries k = none) : (c.get k).1 = none := by
  simp only [PlanCache.get, hp, Partition.get, h]

theorem get_fst_none_of_stale {c : PlanCache} {k : ShapeKey} {p : Partition}
    {e : CacheEntry}
    (hp : c.partitions.get? (PlanCachePartitioner k c.nPartitions) = some p)
    (he : findEntry p.entries k = some e)
    (hst : ¬ e.epoch = c.currentEpoch) : (c.get k).1 = none := by
  simp only [PlanCache.get, hp, Partition.get, he, if_neg hst]

theorem set_nParts (c : PlanCache) (i : Nat) (q : Partition) :
    ({ c with partitions := c.partitions.set i q } : PlanCache).nPartitions = c.nPartitions :=
  List.length_set c.partitions i q

theorem set_get_same {c : PlanCache} {i : Nat} {p : Partition} (q : Partition) (hp : c.partitions.get? i = some p) :
    ({ c with partitions := c.partitions.set i q } : PlanCache).partitions.get? i = some q := by
  show (c.partitions.set i q).get? i = some q
  rw [List.get?_set_eq, hp]
  rfl

theorem set_get_other {c : PlanCache} {i j : Nat} (q : Partition) (hij : i ≠ j) :
    ({ c with partitions := c.partitions.set i q } : PlanCache).partitions.get? j = c.partitions.get? j :=
  List.get?_set_ne q c.partitions hij

theorem insert_ok_goodEntry {c : PlanCache} {k : ShapeKey}
    {tpl : CachedSbePlan} {size : Nat} (hwf : CacheWF c)
    (hn : 0 < c.nPartitions) (hsz : size ≤ c.partitionBudget) :
    ∃ c2 cnt, c.insert k tpl size = .ok (c2, cnt) ∧ goodEntry c2 k tpl := by
  have hlt : PlanCachePartitioner k c.nPartitions < c.partitions.length :=
    Nat.mod_lt _ hn
  rcases hp : c.partitions.get? (PlanCachePartitioner k c.nPartitions) with _ | p
  · exact absurd (List.get?_eq_none.mp hp) (Nat.not_le_of_lt hlt)
  · have hpwf := hwf p (List.get?_mem hp)
    have hnotgt : ¬ size > c.partitionBudget := Nat.not_lt_of_le hsz
    rcases hins : p.insert k tpl size c.currentEpoch c.partitionBudget with er | r
    · rw [Partition.insert, if_neg hnotgt] at hins
      exact absurd hins (by
        rcases hf : findEntry p.entries k with _ | old <;> simp [hf])
    · have hspec := Partition.insert_spec hpwf.1 (by rw [hins])
      refine ⟨{ c with partitions := c.partitions.set (PlanCachePartitioner k c.nPartitions) r.1 }, r.2, ?_, ?_⟩
      · simp only [PlanCache.insert, if_neg hnotgt, hp, hins]
      · refine ⟨r.1, ?_, ?_⟩
        · rw [set_nParts]
          exact set_get_same r.1 hp
        · exact ⟨_, hspec.2.2.2.1, rfl, rfl⟩

theorem goodEntry_preserved {c : PlanCache} {k : ShapeKey}
    {tpl : CachedSbePlan} (hwf : CacheWF c) (hg : goodEntry c k tpl)
    (op : CacheOp) (hop : ∀ tpl2 sz, op ≠ CacheOp.insert k tpl2 sz) :
    goodEntry (applyOp c op) k tpl ∨ ((applyOp c op).get k).1 = none := by
  obtain ⟨p, hp, e, he, het, hee⟩ := hg
  cases op with
  | get k2 =>
    simp only [applyOp, PlanCache.get]
    rcases hp2 : c.partitions.get? (PlanCachePartitioner k2 c.nPartitions)
      with _ | q
    · simp only [hp2]
      exact Or.inl ⟨p, hp, e, he, het, hee⟩
    · simp only [hp2]
      left
      by_cases hik : PlanCachePartitioner k2 c.nPartitions =
          PlanCachePartitioner k c.nPartitions
      · refine ⟨(q.get k2 c.currentEpoch).2, ?_, ?_⟩
        · rw [set_nParts, ← hik]
          exact set_get_same _ hp2
        · have hqp : q = p := by
            rw [hik] at hp2
            rw [hp2] at hp
            injection hp
          subst hqp
          rcases hf2 : findEntry q.entries k2 with _ | e2
          · simp only [Partition.get, hf2]
            exact ⟨e, he, het, hee⟩
          · by_cases hep : e2.epoch = c.currentEpoch
            · simp only [Partition.get, hf2, if_pos hep]
              by_cases hkk : k2 = k
              · subst hkk
                rw [he] at hf2
                injection hf2 with hf2
                subst hf2
                exact ⟨_, findEntry_touchKey_self he, het, hee⟩
              · exact ⟨e, by
                  show findEntry (touchKey q.entries k2 q.clock) k = some e
                  rw [findEntry_touchKey_ne (fun hh => hkk hh.symm)]
                  exact he, het, hee⟩
            · simp only [Partition.get, hf2, if_neg hep]
              exact ⟨e, he, het, hee⟩
      · refine ⟨p, ?_, e, he, het, hee⟩
        rw [set_nParts]
        rw [set_get_other _ hik]
        exact hp
  | insert k2 tpl2 sz =>
    have hk2 : ¬ k2 = k := by
      intro hh
      subst hh
      exact hop tpl2 sz rfl
    simp only [applyOp, PlanCache.insert]
    by_cases hs : sz > c.partitionBudget
    · rw [if_pos hs]
      exact Or.inl ⟨p, hp, e, he, het, hee⟩
    · rw [if_neg hs]
      rcases hp2 : c.partitions.get? (PlanCachePartitioner k2 c.nPartitions)
        with _ | q
      · simp only [hp2]
        exact Or.inl ⟨p, hp, e, he, het, hee⟩
      · simp only [hp2]
        rcases hins : q.insert k2 tpl2 sz c.currentEpoch c.partitionBudget
          with er | r
        · simp only [hins]
          exact Or.inl ⟨p, hp, e, he, het, hee⟩
        · simp only [hins]
          have hqwf := hwf q (List.get?_mem hp2)
          have hspec := Partition.insert_spec hqwf.1 (by rw [hins])
          by_cases hik : PlanCachePartitioner k2 c.nPartitions =
              PlanCachePartitioner k c.nPartitions
          · have hqp : q = p := by
              rw [hik] at hp2
              rw [hp2] at hp
              injection hp
            subst hqp
            rcases hspec.2.2.2.2 k (fun hh => hk2 hh.symm) with hsame | hnone
            · left
              refine ⟨r.1, ?_, e, by rw [hsame]; exact he, het, hee⟩
              rw [set_nParts, ← hik]
              exact set_get_same _ hp2
            · right
              refine get_fst_none_of_absent (p := r.1) ?_ hnone
              rw [set_nParts, ← hik]
              exact set_get_same _ hp2
          · left
            refine ⟨p, ?_, e, he, het, hee⟩
            rw [set_nParts, set_get_other _ hik]
            exact hp
  | recordWork k2 w =>
    simp only [applyOp, PlanCache.recordWork]
    rcases hp2 : c.partitions.get? (PlanCachePartitioner k2 c.nPartitions)
      with _ | q
    · simp only [hp2]
      exact Or.inl ⟨p, hp, e, he, het, hee⟩
    · simp only [hp2]
      left
      by_cases hik : PlanCachePartitioner k2 c.nPartitions =
          PlanCachePartitioner k c.nPartitions
      · have hqp : q = p := by
          rw [hik] at hp2
          rw [hp2] at hp
          injection hp
        subst hqp
        refine ⟨q.recordWork k2 w c.threshold c.marginFactor, ?_, ?_⟩
        · rw [set_nParts, ← hik]
          exact set_get_same _ hp2
        · by_cases hkk : k2 = k
          · subst hkk
            exact ⟨_, findEntry_recordWorkEntries_self he, het, hee⟩
          · exact ⟨e, by
              show findEntry (recordWorkEntries q.entries k2 w _ _) k = some e
              rw [findEntry_recordWorkEntries_ne (fun hh => hkk hh.symm)]
              exact he, het, hee⟩
      · refine ⟨p, ?_, e, he, het, hee⟩
        rw [set_nParts, set_get_other _ hik]
        exact hp
  | invalidateEpoch e2 =>
    simp only [applyOp, PlanCache.invalidateEpoch]
    by_cases hmax : max c.currentEpoch e2 = c.currentEpoch
    · left
      exact ⟨p, hp, e, he, het, by rw [hee]; exact hmax.symm⟩
    · right
      refine get_fst_none_of_stale (p := p) hp he ?_
      rw [hee]
      exact fun hh => hmax hh.symm

/-- Witness for C2: concrete run — one insert of 80 bytes into a fresh cache
with 3 partitions and total budget 300. -/
theorem claim_C2_budget_invariant_witness :
    (runOps [CacheOp.insert ⟨3, 0⟩ ⟨.leaf 1, ⟨0⟩⟩ 80]
        (PlanCache.initial 3 300 10 2)).globalBytesUsed ≤
      (runOps [CacheOp.insert ⟨3, 0⟩ ⟨.leaf 1, ⟨0⟩⟩ 80]
        (PlanCache.initial 3 300 10 2)).totalBudget ∧
    ({ entries := [], bytesUsed := 0, clock := 0 } : Partition).bytesUsed ≤
      (runOps [CacheOp.insert ⟨3, 0⟩ ⟨.leaf 1, ⟨0⟩⟩ 80]
        (PlanCache.initial 3 300 10 2)).partitionBudget :=
  ⟨(claim_C2_budget_invariant 3 300 10 2 [CacheOp.insert ⟨3, 0⟩ ⟨.leaf 1, ⟨0⟩⟩ 80]).1,
   (claim_C2_budget_invariant 3 300 10 2 [CacheOp.insert ⟨3, 0⟩ ⟨.leaf 1, ⟨0⟩⟩ 80]).2
     { entries := [], bytesUsed := 0, clock := 0 } (by decide)⟩

/-- Claim C3: for every key `k` and template `T` with
`sizeBytes ≤ partitionBudget`, `insert(k,T)` succeeds and installs the entry;
while the entry is installed and current (`goodEntry`), `get(k)` returns a
template structurally equal to `T`; and every operation other than an insert
to `k` either keeps the entry installed and current or leaves `get(k)`
returning a miss (the entry was evicted or invalidated). -/
theorem claim_C3_insert_get_until_invalid :
    (∀ (c : PlanCache) (k : ShapeKey) (tpl : CachedSbePlan) (size : Nat),
      CacheWF c → 0 < c.nPartitions → size ≤ c.partitionBudget →
      ∃ c2 cnt, c.insert k tpl size = .ok (c2, cnt) ∧ goodEntry c2 k tpl) ∧
    (∀ (c : PlanCache) (k : ShapeKey) (tpl : CachedSbePlan),
      goodEntry c k tpl → (c.get k).1 = some tpl) ∧
    (∀ (c : PlanCache) (k : ShapeKey) (tpl : CachedSbePlan) (op : CacheOp),
      CacheWF c → goodEntry c k tpl →
      (∀ tpl2 sz, op ≠ CacheOp.insert k tpl2 sz) →
      goodEntry (applyOp c op) k tpl ∨ ((applyOp c op).get k).1 = none) :=
  ⟨fun _ _ _ _ hwf hn hsz => insert_ok_goodEntry hwf hn hsz,
   fun _ _ _ hg => get_fst_of_goodEntry hg,
   fun _ _ _ op hwf hg hop => goodEntry_preserved hwf hg op hop⟩

/-- Witness for C3: a concrete successful insert into a fresh cache. -/
theorem claim_C3_witness :
    ∃ c2 cnt,
      (PlanCache.initial 3 300 10 2).insert ⟨3, 0⟩ ⟨.leaf 1, ⟨0⟩⟩ 80 =
        .ok (c2, cnt) ∧ goodEntry c2 ⟨3, 0⟩ ⟨.leaf 1, ⟨0⟩⟩ :=
  claim_C3_insert_get_until_invalid.1 (PlanCache.initial 3 300 10 2) ⟨3, 0⟩
    ⟨.leaf 1, ⟨0⟩⟩ 80 (CacheWF_initial 3 300 10 2) (by decide) (by decide)

/-- Claim C4: an insert whose size exceeds the partition budget fails with
`EntryTooLarge` and leaves the cache unchanged; `EntryTooLarge` is the only
possible insert failure (an error is returned exactly when the size exceeds
the partition budget) and indeed the only value of the error type; `get` is
total and never fails. -/
theorem claim_C4_entry_too_large :
    (∀ (c : PlanCache) (k : ShapeKey) (tpl : CachedSbePlan) (size : Nat),
      size > c.partitionBudget →
      c.insert k tpl size = .error .entryTooLarge ∧
      applyOp c (.insert k tpl size) = c) ∧
    (∀ (c : PlanCache) (k : ShapeKey) (tpl : CachedSbePlan) (size : Nat)
      (er : CacheError),
      c.insert k tpl size = .error er →
      er = .entryTooLarge ∧ size > c.partitionBudget ∧
        applyOp c (.insert k tpl size) = c) ∧
    (∀ er : CacheError, er = .entryTooLarge) := by
  refine ⟨?_, ?_, fun er => by cases er; rfl⟩
  · intro c k tpl size hsz
    constructor
    · rw [PlanCache.insert, if_pos hsz]
    · simp only [applyOp, PlanCache.insert, if_pos hsz]
  · intro c k tpl size er her
    by_cases hsz : size > c.partitionBudget
    · refine ⟨?_, hsz, ?_⟩
      · rw [PlanCache.insert, if_pos hsz] at her
      · simp only [applyOp, PlanCache.insert, if_pos hsz]
    · exfalso
      rw [PlanCache.insert, if_neg hsz] at her
      rcases hp : c.partitions.get? (PlanCachePartitioner k c.nPartitions)
        with _ | p
      · simp only [hp] at her
        exact Except.noConfusion her
      · simp only [hp] at her
        rcases hins : p.insert k tpl size c.currentEpoch c.partitionBudget
          with er2 | r
        · rw [Partition.insert, if_neg hsz] at hins
          rcases hf : findEntry p.entries k with _ | old
          · simp [hf] at hins
          · simp [hf] at hins
        · rw [hins] at her
          exact Except.noConfusion her

/-- Witness for C4: inserting a 120-byte entry into a cache whose partition
budget is 100 fails with `EntryTooLarge` and changes nothing. -/
theorem claim_C4_witness :
    (PlanCache.initial 3 300 10 2).insert ⟨0, 0⟩ ⟨.leaf 1, ⟨0⟩⟩ 120 =
      .error .entryTooLarge ∧
    applyOp (PlanCache.initial 3 300 10 2) (.insert ⟨0, 0⟩ ⟨.leaf 1, ⟨0⟩⟩ 120) =
      PlanCache.initial 3 300 10 2 :=
  claim_C4_entry_too_large.1 (PlanCache.initial 3 300 10 2) ⟨0, 0⟩
    ⟨.leaf 1, ⟨0⟩⟩ 120 (by decide)

/-- Claim C5: after `invalidateEpoch e2` with `e2` beyond the epoch an entry
was inserted under, `get` on that entry's key misses; `invalidateEpoch`
touches no partition (no entry is removed or scanned) and only bumps the
monotonically increasing epoch counter. -/
theorem claim_C5_epoch_invalidation (c : PlanCache) (k : ShapeKey)
    {p : Partition} {e : CacheEntry} (e2 : Nat)
    (hp : c.partitions.get? (PlanCachePartitioner k c.nPartitions) = some p)
    (he : findEntry p.entries k = some e)
    (helt : e.epoch < e2) :
    ((c.invalidateEpoch e2).get k).1 = none ∧
    (c.invalidateEpoch e2).partitions = c.partitions ∧
    c.currentEpoch ≤ (c.invalidateEpoch e2).currentEpoch := by
  refine ⟨?_, rfl, Nat.le_max_left _ _⟩
  refine get_fst_none_of_stale (c := c.invalidateEpoch e2) (p := p) hp he ?_
  show ¬ e.epoch = max c.currentEpoch e2
  intro hh
  have : e2 ≤ e.epoch := hh ▸ Nat.le_max_right _ _
  omega

/-- Witness for C5: insert an entry under epoch 0, invalidate with epoch 5;
the subsequent get misses while the partitions are untouched. -/
theorem claim_C5_witness :
    (((applyOp (PlanCache.initial 3 300 10 2)
        (.insert ⟨3, 0⟩ ⟨.leaf 1, ⟨0⟩⟩ 80)).invalidateEpoch 5).get ⟨3, 0⟩).1 =
      none ∧
    ((applyOp (PlanCache.initial 3 300 10 2)
        (.insert ⟨3, 0⟩ ⟨.leaf 1, ⟨0⟩⟩ 80)).invalidateEpoch 5).partitions =
      (applyOp (PlanCache.initial 3 300 10 2)
        (.insert ⟨3, 0⟩ ⟨.leaf 1, ⟨0⟩⟩ 80)).partitions ∧
    (applyOp (PlanCache.initial 3 300 10 2)
        (.insert ⟨3, 0⟩ ⟨.leaf 1, ⟨0⟩⟩ 80)).currentEpoch ≤
      ((applyOp (PlanCache.initial 3 300 10 2)
        (.insert ⟨3, 0⟩ ⟨.leaf 1, ⟨0⟩⟩ 80)).invalidateEpoch 5).currentEpoch :=
  claim_C5_epoch_invalidation
    (applyOp (PlanCache.initial 3 300 10 2) (.insert ⟨3, 0⟩ ⟨.leaf 1, ⟨0⟩⟩ 80))
    ⟨3, 0⟩ 5 rfl rfl (by decide)

theorem evictLoop_stop (fuel : Nat) (nk : ShapeKey) (es : List CacheEntry)
    (bytes budget count : Nat) (h : bytes ≤ budget) :
    evictLoop fuel nk es bytes budget count = (es, bytes, count) := by
  cases fuel with
  | zero => rfl
  | succ f => rw [evictLoop, if_pos h]

theorem evictLoop_evict (fuel : Nat) (nk : ShapeKey) (es : List CacheEntry)
    (bytes budget count : Nat) (v : CacheEntry)
    (h : ¬ bytes ≤ budget)
    (hv : selectVictim (es.filter (fun e => decide (¬ e.key = nk))) = some v) :
    evictLoop (fuel + 1) nk es bytes budget count =
      evictLoop fuel nk (removeKey es v.key) (bytes - v.sizeBytes) budget
        (count + 1) := by
  rw [evictLoop, if_neg h, hv]

/-- Claim C6: eviction is oldest-recency first with a preference for
`Inactive` entries.  First conjunct: whenever the candidate set holds an
`Inactive` entry, the selected victim is the oldest `Inactive` candidate;
when all candidates are `Active`, the victim is the oldest candidate
overall.  Second conjunct (the claim's concrete scenario): for entries A
(older, `Active`) and B (newer, `Inactive`) both eligible to satisfy a
budget deficit that one eviction resolves, the insert evicts exactly B —
B is gone, A survives, the new entry is stored. -/
theorem claim_C6_eviction_prefers_inactive :
    (∀ (cands : List CacheEntry) (v : CacheEntry),
      selectVictim cands = some v →
      v ∈ cands ∧
      ((∃ x ∈ cands, x.state = ActivationState.inactive) →
        v.state = ActivationState.inactive ∧
        ∀ x ∈ cands, x.state = ActivationState.inactive →
          v.recencyStamp ≤ x.recencyStamp) ∧
      ((∀ x ∈ cands, x.state = ActivationState.active) →
        ∀ x ∈ cands, v.recencyStamp ≤ x.recencyStamp)) ∧
    (∀ (A B : CacheEntry) (kC : ShapeKey) (tpl : CachedSbePlan)
      (size budget ep clock : Nat),
      A.state = .active → B.state = .inactive →
      A.recencyStamp < B.recencyStamp →
      ¬ A.key = kC → ¬ B.key = kC → ¬ A.key = B.key →
      size ≤ budget →
      A.sizeBytes + B.sizeBytes + size > budget →
      A.sizeBytes + size ≤ budget →
      ∃ p2, Partition.insert ⟨[A, B], A.sizeBytes + B.sizeBytes, clock⟩ kC tpl
          size ep budget = .ok (p2, 1) ∧
        findEntry p2.entries B.key = none ∧
        findEntry p2.entries A.key = some A ∧
        (∃ eC, findEntry p2.entries kC = some eC ∧ eC.template = tpl)) := by
  constructor
  · intro cands v hv
    refine ⟨selectVictim_mem hv, ?_, ?_⟩
    · rintro ⟨x, hx, hxs⟩
      unfold selectVictim at hv
      rcases hfil : cands.filter (fun e => decide (e.state = ActivationState.inactive))
        with _ | ⟨a, rest⟩
      · exfalso
        have := List.filter_eq_nil.mp hfil x hx
        simp [hxs] at this
      · rw [hfil] at hv
        injection hv with hv
        subst hv
        have hmem := oldestEntry_mem a rest
        rw [← hfil] at hmem
        have hst := List.of_mem_filter hmem
        constructor
        · simpa using hst
        · intro y hy hys
          have hyf : y ∈ cands.filter
              (fun e => decide (e.state = ActivationState.inactive)) :=
            List.mem_filter.mpr ⟨hy, by simp [hys]⟩
          rw [hfil] at hyf
          exact oldestEntry_min a rest y hyf
    · intro hall x hx
      unfold selectVictim at hv
      rcases hfil : cands.filter (fun e => decide (e.state = ActivationState.inactive))
        with _ | ⟨a, rest⟩
      · rw [hfil] at hv
        rcases hc : cands with _ | ⟨b, rest2⟩
        · rw [hc] at hv
          exact absurd hv (by simp)
        · rw [hc] at hv
          injection hv with hv
          subst hv
          exact oldestEntry_min b rest2 x (hc ▸ hx)
      · have ha : a ∈ cands.filter
            (fun e => decide (e.state = ActivationState.inactive)) := by
          rw [hfil]
          exact List.mem_cons_self a rest
        have hst := List.of_mem_filter ha
        have ha2 := hall a (List.mem_of_mem_filter ha)
        simp [ha2] at hst
  · intro A B kC tpl size budget ep clock hA hB hAB hAk hBk hABk hszle hover hfit
    have hf : findEntry [A, B] kC = none := by
      simp [findEntry, hAk, hBk]
    have hsel : selectVictim ((A :: B ::
        [({ key := kC, template := tpl, sizeBytes := size, epoch := ep, recencyStamp := clock, state := .inactive, lowStreak := 0 } : CacheEntry)]).filter
          (fun e => decide (¬ e.key = kC))) = some B := by
      simp [selectVictim, List.filter_cons, hAk, hBk, hA, hB, oldestEntry]
    have hcond1 : ¬ (A.sizeBytes + B.sizeBytes + size ≤ budget) := by omega
    have hcond2 : A.sizeBytes + B.sizeBytes + size - B.sizeBytes ≤ budget := by omega
    have hrk : removeKey (A :: B ::
        [({ key := kC, template := tpl, sizeBytes := size, epoch := ep, recencyStamp := clock, state := .inactive, lowStreak := 0 } : CacheEntry)]) B.key =
        [A, ({ key := kC, template := tpl, sizeBytes := size, epoch := ep, recencyStamp := clock, state := .inactive, lowStreak := 0 } : CacheEntry)] := by
      simp [removeKey, hABk]
    have hres : Partition.insert ⟨[A, B], A.sizeBytes + B.sizeBytes, clock⟩ kC tpl
        size ep budget = .ok
        (⟨[A, ({ key := kC, template := tpl, sizeBytes := size, epoch := ep, recencyStamp := clock, state := .inactive, lowStreak := 0 } : CacheEntry)],
          A.sizeBytes + B.sizeBytes + size - B.sizeBytes, clock + 1⟩, 1) := by
      rw [Partition.insert, if_neg (by omega : ¬ size > budget)]
      simp only [hf]
      simp only [List.append_eq, List.cons_append, List.nil_append, List.length_cons,
        List.length_nil]
      rw [evictLoop_evict _ _ _ _ _ _ B hcond1 hsel, hrk,
        evictLoop_stop _ _ _ _ _ _ hcond2]
    refine ⟨_, hres, ?_, ?_, ?_⟩
    · have h1 : ¬ (kC = B.key) := fun hh => hBk hh.symm
      simp [findEntry, hABk, h1]
    · simp [findEntry]
    · refine ⟨{ key := kC, template := tpl, sizeBytes := size, epoch := ep, recencyStamp := clock, state := .inactive, lowStreak := 0 }, ?_, rfl⟩
      simp [findEntry, hAk]

/-- Witness for C6: concrete entries — A of 50 bytes, Active, stamp 0; B of
40 bytes, Inactive, stamp 1; inserting a 30-byte entry into a partition of
budget 100 evicts exactly B. -/
theorem claim_C6_witness :
    ∃ p2, Partition.insert
        ⟨[⟨⟨0, 0⟩, ⟨.leaf 1, ⟨0⟩⟩, 50, 0, 0, .active, 0⟩,
          ⟨⟨1, 0⟩, ⟨.leaf 2, ⟨0⟩⟩, 40, 0, 1, .inactive, 0⟩], 50 + 40, 2⟩
        ⟨2, 0⟩ ⟨.leaf 3, ⟨0⟩⟩ 30 0 100 = .ok (p2, 1) ∧
      findEntry p2.entries ⟨1, 0⟩ = none ∧
      findEntry p2.entries ⟨0, 0⟩ =
        some ⟨⟨0, 0⟩, ⟨.leaf 1, ⟨0⟩⟩, 50, 0, 0, .active, 0⟩ ∧
      (∃ eC, findEntry p2.entries ⟨2, 0⟩ = some eC ∧
        eC.template = ⟨.leaf 3, ⟨0⟩⟩) := by
  have h := claim_C6_eviction_prefers_inactive.2
    ⟨⟨0, 0⟩, ⟨.leaf 1, ⟨0⟩⟩, 50, 0, 0, .active, 0⟩
    ⟨⟨1, 0⟩, ⟨.leaf 2, ⟨0⟩⟩, 40, 0, 1, .inactive, 0⟩
    ⟨2, 0⟩ ⟨.leaf 3, ⟨0⟩⟩ 30 100 0 2
    rfl rfl (by decide) (by decide) (by decide) (by decide)
    (by decide) (by decide) (by decide)
  exact h

/-- Claim C7: the activation state machine.  (a) Every stored entry starts
`Inactive` with an empty low-work streak.  (b) Two consecutive observations
at or below the threshold from the fresh state activate the entry, and
(c) conversely two observations from the fresh state activate it only when
both are at or below the threshold; (d) a single observation never
activates.  (e) From `Active`, an observation deactivates exactly when it
exceeds `threshold * marginFactor`. -/
theorem claim_C7_activation_machine :
    (∀ (p : Partition) (k : ShapeKey) (tpl : CachedSbePlan)
      (size ep budget : Nat) (p2 : Partition) (cnt : Nat), WFp p →
      p.insert k tpl size ep budget = .ok (p2, cnt) →
      ∃ e, findEntry p2.entries k = some e ∧
        e.state = ActivationState.inactive ∧ e.lowStreak = 0) ∧
    (∀ w1 w2 t m : Nat, w1 ≤ t → w2 ≤ t →
      (stepWork (stepWork .inactive 0 w1 t m).1
        (stepWork .inactive 0 w1 t m).2 w2 t m).1 = .active) ∧
    (∀ w1 w2 t m : Nat,
      (stepWork (stepWork .inactive 0 w1 t m).1
        (stepWork .inactive 0 w1 t m).2 w2 t m).1 = .active →
      w1 ≤ t ∧ w2 ≤ t) ∧
    (∀ w t m : Nat, (stepWork .inactive 0 w t m).1 = .inactive) ∧
    (∀ (streak w t m : Nat),
      (stepWork .active streak w t m).1 = .inactive ↔ w > t * m) := by
  refine ⟨?_, ?_, ?_, ?_, ?_⟩
  · intro p k tpl size ep budget p2 cnt hwf heq
    exact ⟨_, (Partition.insert_spec hwf heq).2.2.2.1, rfl, rfl⟩
  · intro w1 w2 t m h1 h2
    simp [stepWork, h1, h2]
  · intro w1 w2 t m h
    by_cases h1 : w1 ≤ t
    · by_cases h2 : w2 ≤ t
      · exact ⟨h1, h2⟩
      · simp [stepWork, h1, h2] at h
    · by_cases h2 : w2 ≤ t
      · simp [stepWork, h1, h2] at h
      · simp [stepWork, h1, h2] at h
  · intro w t m
    by_cases h : w ≤ t <;> simp [stepWork, h]
  · intro streak w t m
    by_cases h : w > t * m <;> simp [stepWork, h]

/-- Witness for C7: threshold 10, margin 2 — works 5 then 5 activate a fresh
entry; work 21 deactivates an active entry. -/
theorem claim_C7_witness :
    (stepWork (stepWork .inactive 0 5 10 2).1
      (stepWork .inactive 0 5 10 2).2 5 10 2).1 = .active ∧
    ((stepWork .active 0 21 10 2).1 = .inactive ↔ 21 > 10 * 2) ∧
    (∃ e, findEntry
        (⟨[⟨⟨3, 0⟩, ⟨.leaf 1, ⟨0⟩⟩, 80, 0, 0, .inactive, 0⟩], 80, 1⟩ :
          Partition).entries ⟨3, 0⟩ = some e ∧
      e.state = ActivationState.inactive ∧ e.lowStreak = 0) :=
  ⟨claim_C7_activation_machine.2.1 5 5 10 2 (by decide) (by decide),
   claim_C7_activation_machine.2.2.2.2 0 21 10 2,
   claim_C7_activation_machine.1 ⟨[], 0, 0⟩ ⟨3, 0⟩ ⟨.leaf 1, ⟨0⟩⟩ 80 0 100
     ⟨[⟨⟨3, 0⟩, ⟨.leaf 1, ⟨0⟩⟩, 80, 0, 0, .inactive, 0⟩], 80, 1⟩ 0
     ⟨rfl, List.nodup_nil⟩ rfl⟩

/-- Counterexample to claim C8 as stated: in the concrete scenario
(`totalBudget = 300`, 3 partitions of budget 100; A = 120, B = 80, C = 90
bytes, all keys in one partition, inserted in order A, B, C), `insert(A)`
fails with `EntryTooLarge` and stores nothing — so A is never present to be
"evicted first" during C's insert, and C's insert performs exactly one
eviction, not the two the claim asserts. -/
theorem claim_C8_counterexample :
    (PlanCache.initial 3 300 10 2).insert ⟨0, 0⟩ ⟨.leaf 1, ⟨0⟩⟩ 120 =
      .error .entryTooLarge ∧
    ((runOps [.insert ⟨0, 0⟩ ⟨.leaf 1, ⟨0⟩⟩ 120,
        .insert ⟨3, 0⟩ ⟨.leaf 2, ⟨0⟩⟩ 80]
        (PlanCache.initial 3 300 10 2)).get ⟨0, 0⟩).1 = none ∧
    ((runOps [.insert ⟨0, 0⟩ ⟨.leaf 1, ⟨0⟩⟩ 120,
        .insert ⟨3, 0⟩ ⟨.leaf 2, ⟨0⟩⟩ 80]
        (PlanCache.initial 3 300 10 2)).insert ⟨6, 0⟩
        ⟨.leaf 3, ⟨0⟩⟩ 90).map (fun r => r.2) = .ok 1 :=
  ⟨rfl, rfl, rfl⟩

/-- Claim C8, amended: in the concrete scenario, `insert(A)` signals
`EntryTooLarge` (120 exceeds the partition budget 100) and stores nothing;
after inserting B (80 bytes) and C (90 bytes), C's insert evicts exactly one
entry (B); the final state holds only C — `get(A)` and `get(B)` miss,
`get(C)` hits — with 90 bytes accounted. -/
theorem claim_C8_scenario :
    (PlanCache.initial 3 300 10 2).insert ⟨0, 0⟩ ⟨.leaf 1, ⟨0⟩⟩ 120 =
      .error .entryTooLarge ∧
    ((runOps [.insert ⟨0, 0⟩ ⟨.leaf 1, ⟨0⟩⟩ 120,
        .insert ⟨3, 0⟩ ⟨.leaf 2, ⟨0⟩⟩ 80]
        (PlanCache.initial 3 300 10 2)).insert ⟨6, 0⟩
        ⟨.leaf 3, ⟨0⟩⟩ 90).map (fun r => r.2) = .ok 1 ∧
    ((runOps [.insert ⟨0, 0⟩ ⟨.leaf 1, ⟨0⟩⟩ 120,
        .insert ⟨3, 0⟩ ⟨.leaf 2, ⟨0⟩⟩ 80, .insert ⟨6, 0⟩ ⟨.leaf 3, ⟨0⟩⟩ 90]
        (PlanCache.initial 3 300 10 2)).get ⟨0, 0⟩).1 = none ∧
    ((runOps [.insert ⟨0, 0⟩ ⟨.leaf 1, ⟨0⟩⟩ 120,
        .insert ⟨3, 0⟩ ⟨.leaf 2, ⟨0⟩⟩ 80, .insert ⟨6, 0⟩ ⟨.leaf 3, ⟨0⟩⟩ 90]
        (PlanCache.initial 3 300 10 2)).get ⟨3, 0⟩).1 = none ∧
    ((runOps [.insert ⟨0, 0⟩ ⟨.leaf 1, ⟨0⟩⟩ 120,
        .insert ⟨3, 0⟩ ⟨.leaf 2, ⟨0⟩⟩ 80, .insert ⟨6, 0⟩ ⟨.leaf 3, ⟨0⟩⟩ 90]
        (PlanCache.initial 3 300 10 2)).get ⟨6, 0⟩).1 =
      some ⟨.leaf 3, ⟨0⟩⟩ ∧
    (runOps [.insert ⟨0, 0⟩ ⟨.leaf 1, ⟨0⟩⟩ 120,
        .insert ⟨3, 0⟩ ⟨.leaf 2, ⟨0⟩⟩ 80, .insert ⟨6, 0⟩ ⟨.leaf 3, ⟨0⟩⟩ 90]
        (PlanCache.initial 3 300 10 2)).globalBytesUsed = 90 :=
  ⟨rfl, rfl, rfl, rfl, rfl, rfl⟩

/-- Claim C1: each fetch of the cached template (slot `t`) clones it into a
freshly allocated instance — two fetches return distinct identifiers, both
distinct from the stored template's slot; each clone is structurally equal
to the stored template; and overwriting one returned clone changes neither
the other clone nor the stored template. -/
theorem claim_C1_clone_freshness (h : Heap) (t : Nat) (p : CachedSbePlan)
    (ht : h.read t = some p) :
    ∃ h1 i1 h2 i2,
      h.fetchClone t = some (h1, i1) ∧
      Heap.fetchClone h1 t = some (h2, i2) ∧
      i1 ≠ i2 ∧ i1 ≠ t ∧ i2 ≠ t ∧
      Heap.read h2 i1 = some p ∧ Heap.read h2 i2 = some p ∧
      Heap.read h2 t = some p ∧
      ∀ v : CachedSbePlan,
        Heap.read (Heap.write h2 i1 v) i2 = Heap.read h2 i2 ∧
        Heap.read (Heap.write h2 i1 v) t = Heap.read h2 t ∧
        Heap.read (Heap.write h2 i2 v) i1 = Heap.read h2 i1 ∧
        Heap.read (Heap.write h2 i2 v) t = Heap.read h2 t := by
  obtain ⟨htl, -⟩ := List.get?_eq_some.mp ht
  have hlen1 : (h ++ [p] : List CachedSbePlan).length = h.length + 1 := by
    simp
  refine ⟨h ++ [p], h.length, (h ++ [p]) ++ [p], h.length + 1,
    ?_, ?_, by omega, by omega, by omega, ?_, ?_, ?_, ?_⟩
  · simp only [Heap.fetchClone, ht]
    rfl
  · have ht1 : Heap.read (h ++ [p]) t = some p := by
      show List.get? (h ++ [p]) t = some p
      rw [List.get?_append htl]
      exact ht
    simp only [Heap.fetchClone, ht1]
    show some (List.append (h ++ [p]) [CachedSbePlan.clone p],
      List.length (h ++ [p])) = _
    rw [CachedSbePlan.clone_eq, hlen1]
    rfl
  · show List.get? ((h ++ [p]) ++ [p]) h.length = some p
    rw [List.get?_append (by rw [hlen1]; omega)]
    exact List.get?_concat_length h p
  · show List.get? ((h ++ [p]) ++ [p]) (h.length + 1) = some p
    rw [← hlen1]
    exact List.get?_concat_length _ p
  · show List.get? ((h ++ [p]) ++ [p]) t = some p
    rw [List.get?_append (by rw [hlen1]; omega), List.get?_append htl]
    exact ht
  · intro v
    exact ⟨List.get?_set_ne _ _ (by omega), List.get?_set_ne _ _ (by omega),
      List.get?_set_ne _ _ (by omega), List.get?_set_ne _ _ (by omega)⟩

/-- Witness for C1: a one-slot heap holding one template. -/
theorem claim_C1_witness :
    ∃ h1 i1 h2 i2,
      Heap.fetchClone [(⟨.leaf 1, ⟨0⟩⟩ : CachedSbePlan)] 0 = some (h1, i1) ∧
      Heap.fetchClone h1 0 = some (h2, i2) ∧
      i1 ≠ i2 ∧ i1 ≠ 0 ∧ i2 ≠ 0 ∧
      Heap.read h2 i1 = some ⟨.leaf 1, ⟨0⟩⟩ ∧
      Heap.read h2 i2 = some ⟨.leaf 1, ⟨0⟩⟩ ∧
      Heap.read h2 0 = some ⟨.leaf 1, ⟨0⟩⟩ ∧
      ∀ v : CachedSbePlan,
        Heap.read (Heap.write h2 i1 v) i2 = Heap.read h2 i2 ∧
        Heap.read (Heap.write h2 i1 v) 0 = Heap.read h2 0 ∧
        Heap.read (Heap.write h2 i2 v) i1 = Heap.read h2 i1 ∧
        Heap.read (Heap.write h2 i2 v) 0 = Heap.read h2 0 :=
  claim_C1_clone_freshness [⟨.leaf 1, ⟨0⟩⟩] 0 ⟨.leaf 1, ⟨0⟩⟩ rfl

/-- Claim C10: `estimateObjectSizeInBytes` returns exactly
`root->estimateCompileTimeSize()`; the auxiliary `planStageData` contributes
nothing, so two plans with equal root stage trees report the same size
regardless of their auxiliary data. -/
theorem claim_C10_size_ignores_aux :
    (∀ p : CachedSbePlan,
      p.estimateObjectSizeInBytes = p.root.estimateCompileTimeSize) ∧
    (∀ p1 p2 : CachedSbePlan, p1.root = p2.root →
      p1.estimateObjectSizeInBytes = p2.estimateObjectSizeInBytes) :=
  ⟨fun _ => rfl, fun _ _ hr => by
    rw [CachedSbePlan.estimateObjectSizeInBytes,
      CachedSbePlan.estimateObjectSizeInBytes, hr]⟩

/-- Witness for C10: two plans with the same root but different auxiliary
data report the same size. -/
theorem claim_C10_witness :
    (⟨.node 1 (.leaf 2) (.leaf 3), ⟨0⟩⟩ : CachedSbePlan).estimateObjectSizeInBytes =
      (⟨.node 1 (.leaf 2) (.leaf 3), ⟨7⟩⟩ : CachedSbePlan).estimateObjectSizeInBytes :=
  claim_C10_size_ignores_aux.2 ⟨.node 1 (.leaf 2) (.leaf 3), ⟨0⟩⟩
    ⟨.node 1 (.leaf 2) (.leaf 3), ⟨7⟩⟩ rfl

/-!
Concurrency model for C9.  Each partition is guarded by its own lock, so an
execution of operations on distinct partitions is modelled as an arbitrary
interleaving (merge) of the per-thread operation sequences; the claim is
that any interleaving produces the same final state — in particular the
same byte accounting — as the sequential run.
-/

theorem set_get?_self {α : Type} {l : List α} {i : Nat} {a : α}
    (h : l.get? i = some a) : l.set i a = l := by
  induction l generalizing i with
  | nil => rfl
  | cons x xs ih =>
    cases i with
    | zero =>
      injection h with h
      rw [List.set, h]
    | succ j =>
      rw [List.set, ih h]

theorem applyOp_keyed (c : PlanCache) (op : CacheOp) (k : ShapeKey)
    (hk : opKey op = some k) :
    applyOp c op = modifyAt c (PlanCachePartitioner k c.nPartitions)
      (keyedStep c op) := by
  cases op with
  | get k0 =>
    injection hk with hk
    subst hk
    simp only [applyOp, PlanCache.get, modifyAt, keyedStep]
    rcases hp : c.partitions.get? (PlanCachePartitioner k0 c.nPartitions)
      with _ | p
    · simp only [hp]
    · simp only [hp]
  | insert k0 tpl size =>
    injection hk with hk
    subst hk
    simp only [applyOp, PlanCache.insert, modifyAt, keyedStep]
    by_cases hs : size > c.partitionBudget
    · rw [if_pos hs]
      rcases hp : c.partitions.get? (PlanCachePartitioner k0 c.nPartitions)
        with _ | p
      · simp only [hp]
      · simp only [hp, if_pos hs]
        rw [set_get?_self hp]
    · rw [if_neg hs]
      rcases hp : c.partitions.get? (PlanCachePartitioner k0 c.nPartitions)
        with _ | p
      · simp only [hp]
      · simp only [hp, if_neg hs]
        rcases hins : p.insert k0 tpl size c.currentEpoch c.partitionBudget
          with er | r
        · simp only [hins]
          rw [set_get?_self hp]
        · simp only [hins]
  | recordWork k0 w =>
    injection hk with hk
    subst hk
    simp only [applyOp, PlanCache.recordWork, modifyAt, keyedStep]
  | invalidateEpoch e => exact absurd hk (by simp [opKey])

theorem modifyAt_currentEpoch (c : PlanCache) (i : Nat) (f : Partition → Partition) :
    (modifyAt c i f).currentEpoch = c.currentEpoch := by
  unfold modifyAt
  rcases h : c.partitions.get? i with _ | p <;> simp

theorem modifyAt_nParts (c : PlanCache) (i : Nat) (f : Partition → Partition) :
    (modifyAt c i f).nPartitions = c.nPartitions := by
  unfold modifyAt
  rcases h : c.partitions.get? i with _ | p
  · simp
  · simp [PlanCache.nPartitions, List.length_set]

theorem modifyAt_totalBudget (c : PlanCache) (i : Nat)
    (f : Partition → Partition) :
    (modifyAt c i f).totalBudget = c.totalBudget := by
  unfold modifyAt
  rcases h : c.partitions.get? i with _ | p <;> simp

theorem modifyAt_partitionBudget (c : PlanCache) (i : Nat)
    (f : Partition → Partition) :
    (modifyAt c i f).partitionBudget = c.partitionBudget := by
  unfold PlanCache.partitionBudget
  rw [modifyAt_nParts, modifyAt_totalBudget]

theorem modifyAt_threshold (c : PlanCache) (i : Nat) (f : Partition → Partition) :
    (modifyAt c i f).threshold = c.threshold := by
  unfold modifyAt
  rcases h : c.partitions.get? i with _ | p <;> simp

theorem modifyAt_marginFactor (c : PlanCache) (i : Nat) (f : Partition → Partition) :
    (modifyAt c i f).marginFactor = c.marginFactor := by
  unfold modifyAt
  rcases h : c.partitions.get? i with _ | p <;> simp

theorem keyedStep_congr {c1 c2 : PlanCache} (op : CacheOp)
    (he : c1.currentEpoch = c2.currentEpoch)
    (hb : c1.partitionBudget = c2.partitionBudget)
    (ht : c1.threshold = c2.threshold)
    (hm : c1.marginFactor = c2.marginFactor) :
    keyedStep c1 op = keyedStep c2 op := by
  funext p
  cases op <;> simp [keyedStep, he, hb, ht, hm]

theorem modifyAt_comm (c : PlanCache) {i j : Nat} (hij : i ≠ j)
    (f g : Partition → Partition) :
    modifyAt (modifyAt c i f) j g = modifyAt (modifyAt c j g) i f := by
  rcases hi : c.partitions.get? i with _ | p
  · have hif : modifyAt c i f = c := by rw [modifyAt, hi]
    rcases hj : c.partitions.get? j with _ | q
    · have hjg : modifyAt c j g = c := by rw [modifyAt, hj]
      rw [hif, hjg, hif]
    · have hgets : (modifyAt c j g).partitions.get? i = none := by
        rw [modifyAt, hj]
        show (c.partitions.set j (g q)).get? i = none
        rw [List.get?_set_ne _ _ (fun hh => hij hh.symm)]
        exact hi
      have hr : modifyAt (modifyAt c j g) i f = modifyAt c j g := by
        rw [modifyAt, hgets]
      rw [hif, hr]
  · rcases hj : c.partitions.get? j with _ | q
    · have hjg : modifyAt c j g = c := by rw [modifyAt, hj]
      have hgets : (modifyAt c i f).partitions.get? j = none := by
        rw [modifyAt, hi]
        show (c.partitions.set i (f p)).get? j = none
        rw [List.get?_set_ne _ _ hij]
        exact hj
      have hl : modifyAt (modifyAt c i f) j g = modifyAt c i f := by
        rw [modifyAt, hgets]
      rw [hl, hjg]
    · have h1 : modifyAt c i f =
          { c with partitions := c.partitions.set i (f p) } := by
        rw [modifyAt, hi]
      have h2 : modifyAt c j g =
          { c with partitions := c.partitions.set j (g q) } := by
        rw [modifyAt, hj]
      have hgq : (modifyAt c i f).partitions.get? j = some q := by
        rw [h1]
        show (c.partitions.set i (f p)).get? j = some q
        rw [List.get?_set_ne _ _ hij]
        exact hj
      have hgp : (modifyAt c j g).partitions.get? i = some p := by
        rw [h2]
        show (c.partitions.set j (g q)).get? i = some p
        rw [List.get?_set_ne _ _ (fun hh => hij hh.symm)]
        exact hi
      have hl : modifyAt (modifyAt c i f) j g =
          { c with partitions := (c.partitions.set i (f p)).set j (g q) } := by
        rw [modifyAt, hgq, h1]
      have hr : modifyAt (modifyAt c j g) i f =
          { c with partitions := (c.partitions.set j (g q)).set i (f p) } := by
        rw [modifyAt, hgp, h2]
      rw [hl, hr,
        show (c.partitions.set i (f p)).set j (g q) =
          (c.partitions.set j (g q)).set i (f p) from List.set_comm _ _ _ hij]

theorem applyOp_comm {c : PlanCache} {op1 op2 : CacheOp} {k1 k2 : ShapeKey}
    (h1 : opKey op1 = some k1) (h2 : opKey op2 = some k2)
    (hne : PlanCachePartitioner k1 c.nPartitions ≠
      PlanCachePartitioner k2 c.nPartitions) :
    applyOp (applyOp c op1) op2 = applyOp (applyOp c op2) op1 := by
  rw [applyOp_keyed c op1 k1 h1, applyOp_keyed c op2 k2 h2]
  rw [applyOp_keyed (modifyAt c (PlanCachePartitioner k1 c.nPartitions)
    (keyedStep c op1)) op2 k2 h2]
  rw [applyOp_keyed (modifyAt c (PlanCachePartitioner k2 c.nPartitions)
    (keyedStep c op2)) op1 k1 h1]
  rw [modifyAt_nParts, modifyAt_nParts]
  rw [keyedStep_congr op2
    (modifyAt_currentEpoch c (PlanCachePartitioner k1 c.nPartitions) (keyedStep c op1))
    (modifyAt_partitionBudget c (PlanCachePartitioner k1 c.nPartitions) (keyedStep c op1))
    (modifyAt_threshold c (PlanCachePartitioner k1 c.nPartitions) (keyedStep c op1))
    (modifyAt_marginFactor c (PlanCachePartitioner k1 c.nPartitions) (keyedStep c op1))]
  rw [keyedStep_congr op1
    (modifyAt_currentEpoch c (PlanCachePartitioner k2 c.nPartitions) (keyedStep c op2))
    (modifyAt_partitionBudget c (PlanCachePartitioner k2 c.nPartitions) (keyedStep c op2))
    (modifyAt_threshold c (PlanCachePartitioner k2 c.nPartitions) (keyedStep c op2))
    (modifyAt_marginFactor c (PlanCachePartitioner k2 c.nPartitions) (keyedStep c op2))]
  exact modifyAt_comm c hne (keyedStep c op1) (keyedStep c op2)

theorem applyOp_nParts (c : PlanCache) (op : CacheOp) :
    (applyOp c op).nPartitions = c.nPartitions :=
  (applyOp_fields c op).2.1

theorem runOps_nParts (l : List CacheOp) (c : PlanCache) :
    (runOps l c).nPartitions = c.nPartitions := by
  induction l generalizing c with
  | nil => rfl
  | cons op l ih =>
    rw [show runOps (op :: l) c = runOps l (applyOp c op) from rfl, ih,
      applyOp_nParts]

theorem applyOp_runOps_comm (n : Nat) (op : CacheOp) (k : ShapeKey)
    (hk : opKey op = some k) :
    ∀ (l : List CacheOp) (c : PlanCache), c.nPartitions = n →
    (∀ op2 ∈ l, ∃ k2, opKey op2 = some k2 ∧
      PlanCachePartitioner k2 n ≠ PlanCachePartitioner k n) →
    applyOp (runOps l c) op = runOps l (applyOp c op) := by
  intro l
  induction l with
  | nil =>
    intro c _ _
    rfl
  | cons op2 l ih =>
    intro c hc hl
    obtain ⟨k2, hk2, hne⟩ := hl op2 (List.mem_cons_self _ _)
    show applyOp (runOps l (applyOp c op2)) op =
      runOps l (applyOp (applyOp c op) op2)
    rw [ih (applyOp c op2) (by rw [applyOp_nParts, hc])
      (fun o ho => hl o (List.mem_cons_of_mem _ ho))]
    have hcomm := applyOp_comm (c := c) hk2 hk (by rw [hc]; exact hne)
    rw [hcomm]

theorem runOps_extract (n : Nat) :
    ∀ (ts : List (List CacheOp)) (pid : Nat → Nat) (i : Nat) (op : CacheOp)
      (tl : List CacheOp) (c : PlanCache),
    c.nPartitions = n →
    (∀ j t, ts.get? j = some t → ∀ op2 ∈ t, ∃ k2, opKey op2 = some k2 ∧
      PlanCachePartitioner k2 n = pid j) →
    (∀ j1 j2, j1 < ts.length → j2 < ts.length → j1 ≠ j2 → pid j1 ≠ pid j2) →
    ts.get? i = some (op :: tl) →
    runOps ts.flatten c = runOps (ts.set i tl).flatten (applyOp c op) := by
  intro ts
  induction ts with
  | nil =>
    intro pid i op tl c _ _ _ hget
    exact absurd hget (by simp)
  | cons t ts2 ih =>
    intro pid i op tl c hc hops hdist hget
    cases i with
    | zero =>
      injection hget with hget
      subst hget
      rfl
    | succ j =>
      have hget2 : ts2.get? j = some (op :: tl) := hget
      obtain ⟨hjlt, -⟩ := List.get?_eq_some.mp hget2
      show runOps (t ++ ts2.flatten) c =
        runOps (t ++ (ts2.set j tl).flatten) (applyOp c op)
      rw [show runOps (t ++ ts2.flatten) c =
          runOps ts2.flatten (runOps t c) from by
        unfold runOps
        rw [List.foldl_append]]
      rw [show runOps (t ++ (ts2.set j tl).flatten) (applyOp c op) =
          runOps ((ts2.set j tl).flatten) (runOps t (applyOp c op)) from by
        unfold runOps
        rw [List.foldl_append]]
      have hihyp := ih (fun j2 => pid (j2 + 1)) j op tl (runOps t c)
        (by rw [runOps_nParts, hc])
        (fun j2 t2 h2 => hops (j2 + 1) t2 h2)
        (fun j1 j2 hj1 hj2 hne =>
          hdist (j1 + 1) (j2 + 1) (by simpa using hj1) (by simpa using hj2)
            (by omega))
        hget2
      rw [hihyp]
      congr 1
      obtain ⟨k, hk, hpk⟩ :=
        hops (j + 1) (op :: tl) hget2 op (List.mem_cons_self _ _)
      refine applyOp_runOps_comm n op k hk t c hc ?_
      intro op2 hop2
      obtain ⟨k2, hk2, hpk2⟩ := hops 0 t rfl op2 hop2
      refine ⟨k2, hk2, ?_⟩
      rw [hpk2, hpk]
      exact hdist 0 (j + 1) (by simp) (by simpa using Nat.succ_lt_succ hjlt)
        (by omega)

theorem merge_runOps (n : Nat) (pid : Nat → Nat) :
    ∀ {ts : List (List CacheOp)} {merged : List CacheOp}, Merge ts merged →
    ∀ (c : PlanCache), c.nPartitions = n →
    (∀ j t, ts.get? j = some t → ∀ op ∈ t, ∃ k, opKey op = some k ∧
      PlanCachePartitioner k n = pid j) →
    (∀ j1 j2, j1 < ts.length → j2 < ts.length → j1 ≠ j2 → pid j1 ≠ pid j2) →
    runOps merged c = runOps ts.flatten c := by
  intro ts merged hm
  induction hm with
  | done ts hts =>
    intro c _ _ _
    rw [List.flatten_eq_nil_iff.mpr hts]
  | step ts i op tl m hget hm2 ih =>
    intro c hc hops hdist
    have hops2 : ∀ j t, (ts.set i tl).get? j = some t → ∀ op2 ∈ t,
        ∃ k, opKey op2 = some k ∧ PlanCachePartitioner k n = pid j := by
      intro j t h op2 hop2
      rw [List.get?_set] at h
      by_cases hij : i = j
      · rw [if_pos hij] at h
        subst hij
        rw [hget] at h
        injection h with h
        subst h
        exact hops i (op :: tl) hget op2 (List.mem_cons_of_mem _ hop2)
      · rw [if_neg hij] at h
        exact hops j t h op2 hop2
    have hdist2 : ∀ j1 j2, j1 < (ts.set i tl).length →
        j2 < (ts.set i tl).length → j1 ≠ j2 → pid j1 ≠ pid j2 := by
      intro j1 j2 hj1 hj2 hne
      rw [List.length_set] at hj1 hj2
      exact hdist j1 j2 hj1 hj2 hne
    show runOps m (applyOp c op) = runOps ts.flatten c
    rw [ih (applyOp c op) (by rw [applyOp_nParts, hc]) hops2 hdist2]
    exact (runOps_extract n ts pid i op tl c hc hops hdist hget).symm

/-- Claim C9: any concurrent schedule (interleaving) of threads whose
operations address pairwise distinct partitions produces exactly the same
final cache state — in particular the same global byte accounting — as
running the threads sequentially one after another (no lost updates). -/
theorem claim_C9_no_lost_updates (n : Nat) (pid : Nat → Nat)
    (ts : List (List CacheOp)) (merged : List CacheOp) (c : PlanCache)
    (hc : c.nPartitions = n)
    (hops : ∀ j t, ts.get? j = some t → ∀ op ∈ t, ∃ k, opKey op = some k ∧
      PlanCachePartitioner k n = pid j)
    (hdist : ∀ j1 j2, j1 < ts.length → j2 < ts.length → j1 ≠ j2 →
      pid j1 ≠ pid j2)
    (hm : Merge ts merged) :
    runOps merged c = runOps ts.flatten c ∧
    (runOps merged c).globalBytesUsed = (runOps ts.flatten c).globalBytesUsed := by
  have h := merge_runOps n pid hm c hc hops hdist
  exact ⟨h, by rw [h]⟩

/-- Witness for C9: two threads inserting into distinct partitions
(keys hash to partitions 0 and 1 of 3); the interleaving that runs thread 1
first produces the same state and byte accounting as the sequential run. -/
theorem claim_C9_witness :
    runOps [.insert ⟨1, 0⟩ ⟨.leaf 2, ⟨0⟩⟩ 20, .insert ⟨0, 0⟩ ⟨.leaf 1, ⟨0⟩⟩ 10]
        (PlanCache.initial 3 300 10 2) =
      runOps ([[.insert ⟨0, 0⟩ ⟨.leaf 1, ⟨0⟩⟩ 10],
        [.insert ⟨1, 0⟩ ⟨.leaf 2, ⟨0⟩⟩ 20]] :
          List (List CacheOp)).flatten (PlanCache.initial 3 300 10 2) ∧
    (runOps [.insert ⟨1, 0⟩ ⟨.leaf 2, ⟨0⟩⟩ 20,
        .insert ⟨0, 0⟩ ⟨.leaf 1, ⟨0⟩⟩ 10]
        (PlanCache.initial 3 300 10 2)).globalBytesUsed =
      (runOps ([[.insert ⟨0, 0⟩ ⟨.leaf 1, ⟨0⟩⟩ 10],
        [.insert ⟨1, 0⟩ ⟨.leaf 2, ⟨0⟩⟩ 20]] :
          List (List CacheOp)).flatten
        (PlanCache.initial 3 300 10 2)).globalBytesUsed :=
  claim_C9_no_lost_updates 3 (fun j => j)
    [[.insert ⟨0, 0⟩ ⟨.leaf 1, ⟨0⟩⟩ 10], [.insert ⟨1, 0⟩ ⟨.leaf 2, ⟨0⟩⟩ 20]]
    [.insert ⟨1, 0⟩ ⟨.leaf 2, ⟨0⟩⟩ 20, .insert ⟨0, 0⟩ ⟨.leaf 1, ⟨0⟩⟩ 10]
    (PlanCache.initial 3 300 10 2)
    rfl
    (by
      intro j t h op hop
      match j, h with
      | 0, h =>
        injection h with h
        subst h
        simp only [List.mem_singleton] at hop
        subst hop
        exact ⟨⟨0, 0⟩, rfl, rfl⟩
      | 1, h =>
        injection h with h
        subst h
        simp only [List.mem_singleton] at hop
        subst hop
        exact ⟨⟨1, 0⟩, rfl, rfl⟩
      | j + 2, h => exact Option.noConfusion h)
    (fun j1 j2 _ _ hne => hne)
    (Merge.step _ 1 (.insert ⟨1, 0⟩ ⟨.leaf 2, ⟨0⟩⟩ 20) [] _ rfl
      (Merge.step _ 0 (.insert ⟨0, 0⟩ ⟨.leaf 1, ⟨0⟩⟩ 10) [] [] rfl
        (Merge.done _ (by decide))))

end PlanCacheModel
